import Mathlib

/-!
Shallow embedding of the `context_retriever` repository
(`code_context_retriever` Python package) used to settle the frozen claims
C1..C10.

Modelling conventions:
* Python strings are modelled as `List Char`; Python text operations
  (`strip`, `rstrip`, `splitlines`, `count`, slicing) are re-implemented
  below with Python semantics.
* Python floats are modelled as real numbers (`ℝ`).  The float32
  coercions (`astype(np.float32)`) are modelled as the identity.
* Fallible Python code (code that can raise) is modelled with
  `Except Unit`; non-failing code is total.
* File system reads are modelled by passing the file content as an
  argument; the `is_valid_file` gate is modelled by a `valid : Bool`
  argument (an invalid file yields zero chunks before any read).
* External collaborators (the FAISS search backend, the embedding
  provider, the on-disk cache, the pickle store) are modelled as
  function/state parameters with the interface the code uses.
-/

namespace CtxRetr

/-! ## Python text primitives -/

/-- Python's ASCII whitespace set, as stripped by `str.strip` /
`str.rstrip` and matched by the regex class `\s`. -/
def pyWs (c : Char) : Bool :=
  c = ' ' || c = '\t' || c = '\n' || c = '\r' || c = '\x0b' || c = '\x0c'

/-- Python `str.rstrip()` (no argument): drop trailing whitespace. -/
def pyRstrip (s : List Char) : List Char :=
  (s.reverse.dropWhile pyWs).reverse

/-- Python `str.strip()` (no argument): drop leading and trailing
whitespace. -/
def pyStrip (s : List Char) : List Char :=
  pyRstrip (s.dropWhile pyWs)

/-- `content.count '\n'`: number of newline characters. -/
def countNl (s : List Char) : Nat :=
  (s.filter (· = '\n')).length

/-- `os.path.basename` for `/`-separated paths (the only separator on the
platform the repo targets). -/
def pyBasename (s : List Char) : List Char :=
  (s.reverse.takeWhile (· ≠ '/')).reverse

/-- Split a character list on `'\n'` (separator removed). -/
def splitOnNl : List Char → List (List Char)
  | [] => [[]]
  | c :: cs =>
    let r := splitOnNl cs
    if c = '\n' then [] :: r
    else match r with
      | [] => [[c]]
      | h :: t => (c :: h) :: t

/-- Python `str.splitlines()` restricted to `'\n'` line ends: like
splitting on `'\n'` but without a trailing empty line, and `[]` for the
empty string. -/
def pySplitlines (s : List Char) : List (List Char) :=
  if s = [] then []
  else
    let p := splitOnNl s
    if p.getLast? = some [] then p.dropLast else p

/-- Python `"\n".join(lines)`. -/
def joinNl (lines : List (List Char)) : List Char :=
  match lines with
  | [] => []
  | l :: ls => l ++ (ls.map (fun x => '\n' :: x)).flatten

/-- Does `pat` occur starting at index `i` of `s`? -/
def startsAt (pat s : List Char) (i : Nat) : Bool :=
  pat.isPrefixOf (s.drop i)

/-- Index of the first occurrence of `pat` in `s` at or after index `i`
(Python `str.find(pat, i)` returning `none` for `-1`), searched with
fuel = length of `s`. -/
def findSubFrom (pat s : List Char) (i : Nat) : Option Nat :=
  go (s.length + 1) i
where
  go : Nat → Nat → Option Nat
    | 0, _ => none
    | fuel + 1, j =>
      if j > s.length then none
      else if startsAt pat s j then some j
      else go fuel (j + 1)

/-- `\w` word characters (ASCII portion: the repo's identifiers are
ASCII). -/
def isWordChar (c : Char) : Bool :=
  c.isAlphanum || c = '_'

/-- Length of the maximal run of characters satisfying `p` starting at
index `i`. -/
def runLen (p : Char → Bool) (s : List Char) (i : Nat) : Nat :=
  ((s.drop i).takeWhile p).length

/-- Python `str.replace(pat, "")` for a non-empty pattern: remove every
(left-to-right, non-overlapping) occurrence of `pat`. -/
def pyRemoveAll (pat : List Char) (s : List Char) : List Char :=
  go (s.length + 1) s
where
  go : Nat → List Char → List Char
    | 0, rest => rest
    | fuel + 1, rest =>
      match rest with
      | [] => []
      | c :: cs =>
        if pat ≠ [] ∧ pat.isPrefixOf rest then
          go fuel (rest.drop pat.length)
        else c :: go fuel cs

/-- Python `str.lower()` (ASCII). -/
def pyLower (s : List Char) : List Char :=
  s.map Char.toLower

/-! ## Data model: chunks

A chunk is the dictionary built by the extractors
(`file/name/type/code/docstring/full_text/line_start/line_end`). -/

structure Chunk where
  file : List Char
  name : List Char
  typ : List Char
  code : List Char
  docstring : List Char
  full_text : List Char
  line_start : Nat
  line_end : Nat
  deriving Repr, DecidableEq

/-! ## Markdown extractor

`MarkdownExtractor._split_by_headings` uses
`re.compile(r'^(#{1,6})\s+(.+?)$', re.MULTILINE).finditer(content)`.
A match is anchored at a line start, takes 1..6 `#` characters (a run of
7 or more `#` can never match), then at least one `\s` character (which,
in Python, may include newlines), then a lazy `.+?` up to the next `$`
(before a `'\n'` or at end of input).  Only `match.start()` and
`match.group(2)` are consumed by the caller. -/

/-- Attempt the heading regex anchored at line-start position `p`.
Returns `(group2, matchEnd)` on success, following the engine's
greedy/lazy backtracking order. -/
def headingMatchAt (s : List Char) (p : Nat) : Option (List Char × Nat) :=
  let h := runLen (· = '#') s p
  if h = 0 ∨ h > 6 then none
  else
    let w := runLen pyWs s (p + h)
    if w = 0 then none
    else
      let q0 := p + h + w
      if q0 < s.length then
        -- generic case: `\s+` consumes the maximal whitespace run, the
        -- lazy `.+?$` takes the rest of the current line
        let g := (s.drop q0).takeWhile (· ≠ '\n')
        some (g, q0 + g.length)
      else
        -- the whitespace run reaches end of input: `\s+` backtracks,
        -- leaving its longest suffix starting with a non-newline
        -- character to `.+?$`
        match ((List.range w).filter
            (fun j => 1 ≤ j ∧ j < w ∧ s.getD (p + h + j) ' ' ≠ '\n')).max? with
        | none => none
        | some j =>
          let g := (s.drop (p + h + j)).takeWhile (· ≠ '\n')
          some (g, p + h + j + g.length)

/-- `finditer` for the heading pattern: scan positions left to right,
only attempting at line starts, resuming after each match.  Returns
`(start, group2)` pairs. -/
def findHeadings (s : List Char) : List (Nat × List Char) :=
  go (s.length + 1) 0 true
where
  go : Nat → Nat → Bool → List (Nat × List Char)
    | 0, _, _ => []
    | fuel + 1, p, atLineStart =>
      if p ≥ s.length then []
      else
        match (if atLineStart then headingMatchAt s p else none) with
        | some (g, e) =>
          let e' := max e (p + 1)
          (p, g) :: go fuel e' (s.getD (e' - 1) ' ' = '\n')
        | none => go fuel (p + 1) (s.getD p ' ' = '\n')

/-- `MarkdownExtractor._split_by_headings`: the list of
`(heading, content)` sections. -/
def splitByHeadings (content : List Char) : List (List Char × List Char) :=
  let headings := findHeadings content
  if headings.isEmpty then
    [(('D' :: "ocument".toList), content)]
  else
    (List.range headings.length).map (fun i =>
      let (pos, g) := headings.getD i (0, [])
      let endPos :=
        if i < headings.length - 1 then (headings.getD (i + 1) (0, [])).1
        else content.length
      (pyStrip g, (content.take endPos).drop pos))

/-- The section-emission loop of `MarkdownExtractor.extract_chunks`:
walks the sections keeping the running `line_count`, skipping sections
whose content strips to empty. -/
def mdSectionChunks (filePath : List Char) :
    List (List Char × List Char) → Nat → List Chunk
  | [], _ => []
  | (heading, content) :: rest, lineCount =>
    if pyStrip content = [] then
      mdSectionChunks filePath rest lineCount
    else
      let sectionLines := countNl content + 1
      let lineStart := lineCount
      let lineEnd := lineCount + sectionLines - 1
      { file := filePath
        name := pyBasename filePath ++ (':' :: heading)
        typ := "section".toList
        code := []
        docstring := content
        full_text := content
        line_start := lineStart
        line_end := lineEnd } :: mdSectionChunks filePath rest (lineEnd + 1)

/-- `MarkdownExtractor.extract_chunks`.  `valid` is the result of
`is_valid_file`; `splitHeadings` is `config.get('split_by_headings',
True)`; `content` is the file's text. -/
def mdExtractChunks (filePath content : List Char)
    (splitHeadings valid : Bool) : List Chunk :=
  if ¬ valid then []
  else
    let docChunk : Chunk :=
      { file := filePath
        name := pyBasename filePath
        typ := "document".toList
        code := []
        docstring := content
        full_text := content
        line_start := 1
        line_end := countNl content + 1 }
    docChunk ::
      (if splitHeadings then
        mdSectionChunks filePath (splitByHeadings content) 1
      else [])

/-! ## TypeScript extractor

`TypeScriptExtractor` locates declarations with four regexes and then
walks braces from the match start.  Each regex below is implemented as a
deterministic anchored matcher (the result the Python engine's
leftmost/greedy/lazy backtracking produces), plus a `finditer`-style
scan that resumes after each match. -/

/-- Skip an optional literal keyword followed by at least one `\s`
(the `(?:kw\s+)?` idiom).  Returns the position after the keyword and
its whitespace when present, else the input position.  (Taking the
optional group can never block a later match here because every
following alternative starts with a different letter.) -/
def skipOptKw (kw : List Char) (s : List Char) (p : Nat) : Nat :=
  if startsAt kw s p ∧ runLen pyWs s (p + kw.length) ≥ 1 then
    p + kw.length + runLen pyWs s (p + kw.length)
  else p

/-- Require a literal at position `p`; return the position after it. -/
def reqLit (lit : List Char) (s : List Char) (p : Nat) : Option Nat :=
  if startsAt lit s p then some (p + lit.length) else none

/-- Require at least one `\s` at `p`; return the position after the
maximal run. -/
def reqWs (s : List Char) (p : Nat) : Option Nat :=
  let w := runLen pyWs s p
  if w ≥ 1 then some (p + w) else none

/-- Require at least one `\w` at `p` (`(\w+)` capture); return the
captured run and the following position. -/
def reqWord (s : List Char) (p : Nat) : Option (List Char × Nat) :=
  let g := (s.drop p).takeWhile isWordChar
  if g.length ≥ 1 then some (g, p + g.length) else none

/-- Skip `\s*`. -/
def skipWs (s : List Char) (p : Nat) : Nat :=
  p + runLen pyWs s p

/-- The tail `\s*(?::\s*[^{]+)?\s*\{` of the function regex, entered at
the position right after the closing parenthesis.  Resolves to: after
`\s*`, either a `'\x7b'` directly, or a `':'` followed (at distance ≥ 2)
by the next `'\x7b'`.  Returns the position after the `'\x7b'`. -/
def fnTailMatch (s : List Char) (p : Nat) : Option Nat :=
  let a := skipWs s p
  if s.getD a ' ' = '\x7b' ∧ a < s.length then some (a + 1)
  else if s.getD a ' ' = ':' ∧ a < s.length then
    match findSubFrom ['\x7b'] s (a + 1) with
    | some u => if u ≥ a + 2 then some (u + 1) else none
    | none => none
  else none

/-- Anchored match of
`(?:export\s+)?(?:async\s+)?function\s+(\w+)\s*\([^)]*\)\s*(?::\s*[^{]+)?\s*\{`
at position `p`; returns `(name, matchEnd)`. -/
def matchFunctionAt (s : List Char) (p : Nat) : Option (List Char × Nat) := do
  let p := skipOptKw "export".toList s p
  let p := skipOptKw "async".toList s p
  let p ← reqLit "function".toList s p
  let p ← reqWs s p
  let (name, p) ← reqWord s p
  let p := skipWs s p
  let p ← reqLit ['('] s p
  -- `[^)]*\)`: everything to the first `')'`
  let r ← findSubFrom [')'] s p
  let p := r + 1
  let e ← fnTailMatch s p
  pure (name, e)

/-- The optional `(?:\s+extends\s+\w+)?` group of the class regex. -/
def optExtendsWord (s : List Char) (p : Nat) : Nat :=
  match reqWs s p with
  | none => p
  | some q =>
    match reqLit "extends".toList s q with
    | none => p
    | some q =>
      match reqWs s q with
      | none => p
      | some q =>
        match reqWord s q with
        | none => p
        | some (_, q) => q

/-- The optional `(?:\s+extends\s+[^{]+)?` group (interface regex) /
`(?:\s+implements\s+[^{]+)?` group (class regex), followed by the
common `\s*\{` tail.  `kw` is the keyword.  Entered after the name (or
after the class's `extends` clause); returns the position after `'\x7b'`.

The `[^{]+` subpattern reaches exactly to the next `'\x7b'`; it needs at
least one character, which (by backtracking into the preceding `\s+`)
exists whenever the `'\x7b'` is not immediately after `kw` plus a single
whitespace character. -/
def kwBodyTail (kw : List Char) (s : List Char) (p : Nat) : Option Nat :=
  let viaKw : Option Nat := do
    let q ← reqWs s p
    let q2 ← reqLit kw s q
    let w2 := runLen pyWs s q2
    if w2 = 0 then none
    else
      let t := q2 + w2
      match findSubFrom ['\x7b'] s t with
      | some u => if u > t ∨ w2 ≥ 2 then some (u + 1) else none
      | none => none
  match viaKw with
  | some e => some e
  | none =>
    -- group skipped: `\s*\{`
    let a := skipWs s p
    if s.getD a ' ' = '\x7b' ∧ a < s.length then some (a + 1) else none

/-- Anchored match of
`(?:export\s+)?class\s+(\w+)(?:\s+extends\s+\w+)?(?:\s+implements\s+[^{]+)?\s*\{`. -/
def matchClassAt (s : List Char) (p : Nat) : Option (List Char × Nat) := do
  let p := skipOptKw "export".toList s p
  let p ← reqLit "class".toList s p
  let p ← reqWs s p
  let (name, p) ← reqWord s p
  let p := optExtendsWord s p
  let e ← kwBodyTail "implements".toList s p
  pure (name, e)

/-- Anchored match of
`(?:export\s+)?interface\s+(\w+)(?:\s+extends\s+[^{]+)?\s*\{`. -/
def matchInterfaceAt (s : List Char) (p : Nat) : Option (List Char × Nat) := do
  let p := skipOptKw "export".toList s p
  let p ← reqLit "interface".toList s p
  let p ← reqWs s p
  let (name, p) ← reqWord s p
  let e ← kwBodyTail "extends".toList s p
  pure (name, e)

/-- The `\s*=>\s*(?:\{|\()` tail of the arrow-function regex; entered
after the parameter part.  Returns the position after the `'\x7b'`/`'('`. -/
def arrowTail (s : List Char) (p : Nat) : Option Nat := do
  let p := skipWs s p
  let p ← reqLit ['=', '>'] s p
  let p := skipWs s p
  if (s.getD p ' ' = '\x7b' ∨ s.getD p ' ' = '(') ∧ p < s.length then
    some (p + 1)
  else none

/-- The part `\s*(?:\([^)]*\)|[^=]+)\s*=>\s*(?:\{|\()` of the arrow
regex, entered right after the literal `'='`.  The engine prefers the
parenthesised alternative: since `'('` is not whitespace it can only
sit at the end of the greedy `\s*` run, `[^)]*` reaches exactly to the
first `')'`, and the continuation is `arrowTail`.  If that whole route
fails the engine backtracks into `[^=]+` — which can also absorb the
leading `\s*` run, whitespace not being `'='` — so the matched `"=>"`
sits at the first `'='` at or after `p`, which must lie strictly after
`p` so that `[^=]+` is non-empty, followed by the same deterministic
tail (`arrowTail` skips no whitespace there since `'='` is not `\s`).
Returns the match end. -/
def arrowParams (s : List Char) (p : Nat) : Option Nat :=
  let branch1 : Option Nat := do
    let q ← reqLit ['('] s (skipWs s p)
    let r ← findSubFrom [')'] s q
    arrowTail s (r + 1)
  match branch1 with
  | some e => some e
  | none =>
    match findSubFrom ['='] s p with
    | some m => if m ≥ p + 1 then arrowTail s m else none
    | none => none

/-- Anchored match of
`(?:export\s+)?const\s+(\w+)\s*=\s*(?:\([^)]*\)|[^=]+)\s*=>\s*(?:\{|\()`. -/
def matchArrowAt (s : List Char) (p : Nat) : Option (List Char × Nat) := do
  let p := skipOptKw "export".toList s p
  let p ← reqLit "const".toList s p
  let p ← reqWs s p
  let (name, p) ← reqWord s p
  let p := skipWs s p
  let p ← reqLit ['='] s p
  let e ← arrowParams s p
  pure (name, e)

/-- `finditer` over an anchored matcher: scan left to right, emit
`(start, name)`, resume at the match end. -/
def finditer (m : List Char → Nat → Option (List Char × Nat))
    (s : List Char) : List (Nat × List Char) :=
  go (s.length + 1) 0
where
  go : Nat → Nat → List (Nat × List Char)
    | 0, _ => []
    | fuel + 1, p =>
      if p > s.length then []
      else
        match m s p with
        | some (name, e) => (p, name) :: go fuel (max e (p + 1))
        | none => go fuel (p + 1)

/-- `TypeScriptExtractor._extract_docstring`: rstrip the content before
`pos`, `re.search` the first `/\*\*(.*?)\*/` match, and keep its
stripped interior only when the whole search area ends with that
match. -/
def tsExtractDocstring (content : List Char) (pos : Nat) : List Char :=
  let sa := pyRstrip (content.take pos)
  match firstBlockComment sa with
  | some (g0, interior) =>
    if g0.isSuffixOf sa then pyStrip interior else []
  | none => []
where
  /-- `re.search(r'/\*\*(.*?)\*/', sa, re.DOTALL)`: the leftmost
  position where `/**` is followed by a later `*/`; lazy interior up
  to the first `*/`.  Returns `(group0, group1)`. -/
  firstBlockComment (sa : List Char) : Option (List Char × List Char) :=
    go sa (sa.length + 1) 0
  go (sa : List Char) : Nat → Nat → Option (List Char × List Char)
    | 0, _ => none
    | fuel + 1, i =>
      if i > sa.length then none
      else if startsAt ['/', '*', '*'] sa i then
        match findSubFrom ['*', '/'] sa (i + 3) with
        | some j =>
          let interior := (sa.take j).drop (i + 3)
          some (['/', '*', '*'] ++ interior ++ ['*', '/'], interior)
        | none => go sa fuel (i + 1)
      else go sa fuel (i + 1)

/-- The brace walk of `TypeScriptExtractor._extract_code_block`:
`(pos, count)` after the loop, starting just past the opening brace
with `count = 1`. -/
def braceWalk : List Char → Nat → Nat → Nat × Nat
  | _, pos, 0 => (pos, 0)
  | [], pos, count => (pos, count)
  | c :: rest, pos, count =>
    let count' :=
      if c = '\x7b' then count + 1
      else if c = '\x7d' then count - 1
      else count
    braceWalk rest (pos + 1) count'

/-- `TypeScriptExtractor._extract_code_block`: find the opening brace,
walk to its balancing close, and return
`(snippet, line_start, line_end)`; `("", 0, 0)` when there is no
opening brace or the count never returns to zero. -/
def tsExtractCodeBlock (content : List Char) (startPos : Nat) :
    List Char × Nat × Nat :=
  match findSubFrom ['\x7b'] content startPos with
  | none => ([], 0, 0)
  | some openPos =>
    let (endPos, count) := braceWalk (content.drop (openPos + 1)) (openPos + 1) 1
    if count ≠ 0 then ([], 0, 0)
    else
      ((content.take endPos).drop startPos,
       countNl (content.take startPos) + 1,
       countNl (content.take endPos) + 1)

/-- The per-match chunk construction shared by the four
`_extract_*` methods. -/
def tsChunksOf (filePath content : List Char) (typ : List Char)
    (ms : List (Nat × List Char)) : List Chunk :=
  ms.filterMap (fun (startPos, name) =>
    let docstring := tsExtractDocstring content startPos
    let (snippet, lineStart, lineEnd) := tsExtractCodeBlock content startPos
    if snippet = [] then none
    else
      some
        { file := filePath
          name := name
          typ := typ
          code := snippet
          docstring := docstring
          full_text :=
            if docstring ≠ [] then snippet ++ '\n' :: docstring else snippet
          line_start := lineStart
          line_end := lineEnd })

/-- `TypeScriptExtractor.extract_chunks`. -/
def tsExtractChunks (filePath content : List Char) (valid : Bool) :
    List Chunk :=
  if ¬ valid then []
  else
    tsChunksOf filePath content "function".toList
        (finditer matchFunctionAt content) ++
    tsChunksOf filePath content "class".toList
        (finditer matchClassAt content) ++
    tsChunksOf filePath content "interface".toList
        (finditer matchInterfaceAt content) ++
    tsChunksOf filePath content "arrow_function".toList
        (finditer matchArrowAt content)

/-! ## Python extractor

`PythonExtractor` works on the CPython `ast` parse of the file; the
parser is an external collaborator, so AST nodes are modelled as data:
`lineno`, optional `end_lineno`, the body statements' optional
`end_lineno`s (with `getattr(n, 'end_lineno', node.lineno)` defaults),
and the result of `ast.get_docstring`. -/

structure PyNode where
  /-- `node.name`. -/
  name : List Char
  /-- `type(node).__name__`, e.g. `"FunctionDef"`. -/
  kindName : List Char
  /-- `node.lineno` (1-based in CPython). -/
  lineno : Nat
  /-- `getattr(node, 'end_lineno', ...)`: `none` when absent. -/
  end_lineno : Option Nat
  /-- the body statements' `end_lineno` attributes (`none` when absent,
  in which case the code falls back to the outer `node.lineno`). -/
  body : List (Option Nat)
  /-- `ast.get_docstring(node)` (`none` for Python `None`). -/
  docstring : Option (List Char)

/-- `PythonExtractor._extract_node`.  The `try/except` wrapper is
dead in the model (nothing below raises), so the result is total. -/
def pyExtractNode (node : PyNode) (filePath fileContent : List Char) :
    Chunk :=
  let docstring := node.docstring.getD []
  let startLine := node.lineno - 1
  let endLine0 := node.end_lineno.getD node.lineno
  let endLine :=
    if node.body ≠ [] then
      max endLine0 ((node.body.map (fun e => e.getD node.lineno)).foldl max 0)
    else endLine0
  let codeLines :=
    ((pySplitlines fileContent).drop startLine).take (endLine - startLine)
  let codeSnippet := joinNl codeLines
  { file := filePath
    name := node.name
    typ := pyLower (pyRemoveAll "Def".toList node.kindName)
    code := codeSnippet
    docstring := docstring
    full_text :=
      if docstring ≠ [] then codeSnippet ++ '\n' :: docstring else codeSnippet
    line_start := startLine + 1
    line_end := endLine }

/-- `PythonExtractor.extract_chunks`.  `moduleDocstring` is
`ast.get_docstring(module_ast)`; `nodes` are the function/class nodes in
`ast.walk` order. -/
def pyExtractChunks (filePath fileContent : List Char)
    (moduleDocstring : Option (List Char)) (nodes : List PyNode)
    (valid : Bool) : List Chunk :=
  if ¬ valid then []
  else
    (match moduleDocstring with
      | some d =>
        if d ≠ [] then
          [{ file := filePath
             name := filePath ++ ':' :: "module".toList
             typ := "module".toList
             code := []
             docstring := d
             full_text := d
             line_start := 1
             line_end := (splitOnNl d).length + 1 }]
        else []
      | none => []) ++
    nodes.map (fun n => pyExtractNode n filePath fileContent)

/-! ## Embedding service

The embedding provider is external (`sentence-transformers` /
`DSPy`); it is modelled by two functions: `single` for
`local_model.encode(text)` / `self.embedder(text)` and `group` for the
multi-input call made on a batch's cache misses (`none` = the call
raises).  The on-disk cache is modelled as a snapshot function
`cache : String → Option Vec` (the content-hash key is injective on the
relevant inputs; cache writes do not feed back into the claims). -/

structure EmbCfg where
  use_cache : Bool
  /-- `self.batch_size` (`config.get('batch_size', 32)`). -/
  batch_size : Nat
  /-- `self.embed_dim`. -/
  embed_dim : Nat
  /-- cache lookups: `self._get_from_cache`. -/
  cache : List Char → Option (List ℝ)
  /-- the provider's single-text call. -/
  single : List Char → Option (List ℝ)
  /-- the provider's multi-input call on a batch's cache misses. -/
  group : List (List Char) → Option (List (List ℝ))

/-- `np.zeros(dim)`. -/
def zeros (dim : Nat) : List ℝ := List.replicate dim 0

/-- The cache check guarded by `use_cache` (the `if self.use_cache:`
gate around `self._get_from_cache`). -/
def cacheLookup (cfg : EmbCfg) (t : List Char) : Option (List ℝ) :=
  if cfg.use_cache then cfg.cache t else none

/-- `Embedder.embed`. -/
def embed (cfg : EmbCfg) (text : List Char) : List ℝ :=
  match cacheLookup cfg text with
  | some v => v
  | none =>
    match cfg.single text with
    | some e => e
    | none => zeros cfg.embed_dim

/-- Scatter-write `result[idx] := emb` for the zipped
`(batch_indices, batch_embeddings)` pairs; mirrors the sequential
write loop (an exhausted embedding list stops the loop, as the caught
`IndexError` does in the code). -/
def writeRows (rows : List (List ℝ)) : List (Nat × List ℝ) → List (List ℝ)
  | [] => rows
  | (idx, emb) :: rest => writeRows (rows.set idx emb) rest

/-- `Embedder._process_batch`.  Returns the batch's row matrix.  Rows
start as zeros; cache hits are written first, then the provider is
called once on the misses; a provider failure leaves the miss rows
zero.  (A cache hit whose vector length differs from `embed_dim` would
make the numpy row assignment raise; the claims' hypotheses restrict
to well-formed caches, where plain replacement is the numpy
behaviour.) -/
def processBatch (cfg : EmbCfg) (texts : List (List Char)) : List (List ℝ) :=
  let rows1 := writeRows (List.replicate texts.length (zeros cfg.embed_dim))
    ((texts.enum.filter (fun p => (cacheLookup cfg p.2).isSome)).map
      (fun p => (p.1, (cacheLookup cfg p.2).getD (zeros cfg.embed_dim))))
  if texts.enum.filter (fun p => (cacheLookup cfg p.2).isNone) = [] then rows1
  else
    match cfg.group ((texts.enum.filter
        (fun p => (cacheLookup cfg p.2).isNone)).map (·.2)) with
    | some embs =>
      writeRows rows1
        (((texts.enum.filter
            (fun p => (cacheLookup cfg p.2).isNone)).map (·.1)).zip embs)
    | none => rows1

/-- The Python batching `[texts[i:i+bs] for i in range(0, len(texts), bs)]`
(fuel-driven; `bs = 0` would make the Python `range` raise and is kept
out by the claims' hypotheses). -/
def chunkAux : Nat → Nat → List α → List (List α)
  | 0, _, _ => []
  | _ + 1, _, [] => []
  | fuel + 1, bs, l => l.take bs :: chunkAux fuel bs (l.drop bs)

def chunkBy (bs : Nat) (l : List α) : List (List α) :=
  chunkAux (l.length + 1) bs l

/-- The effective batch size: `batch_size = batch_size or
self.batch_size` (Python `or`: an explicit `0` is falsy and also falls
back). -/
def effBs (cfg : EmbCfg) (bsArg : Option Nat) : Nat :=
  match bsArg with
  | some b => if b = 0 then cfg.batch_size else b
  | none => cfg.batch_size

/-- One batch's result as stored into `batch_results[batch_idx]`:
`_process_batch`'s rows, or — when the future raises, which in the model
corresponds to a group-level error the worker did not catch — a full
zero matrix.  The model's `processBatch` is total, so the zero branch is
kept reachable through `groupRaises`, an abstract per-batch predicate
for the uncaught exception paths (e.g. a malformed cache entry making
the numpy row assignment raise). -/
def batchResult (cfg : EmbCfg) (groupRaises : List (List Char) → Bool)
    (batch : List (List Char)) : List (List ℝ) :=
  if groupRaises batch then List.replicate batch.length (zeros cfg.embed_dim)
  else processBatch cfg batch

/-- `Embedder.batch_embed`, with the `as_completed` completion order
made explicit: `order` lists batch indices in the order their futures
complete; each completion stores its result into slot
`futures.index(future)` (= its own batch index).  The final `np.vstack`
concatenates the slots in index order; an unfilled slot is modelled as
zero rows (unreachable when `order` covers every index). -/
def batchEmbedWithOrder (cfg : EmbCfg) (groupRaises : List (List Char) → Bool)
    (texts : List (List Char)) (bsArg : Option Nat) (order : List Nat) :
    List (List ℝ) :=
  if texts = [] then []
  else
    let bs := effBs cfg bsArg
    let batches := chunkBy bs texts
    let slots0 : List (Option (List (List ℝ))) :=
      List.replicate batches.length none
    let slots := order.foldl
      (fun slots idx =>
        slots.set idx (some (batchResult cfg groupRaises (batches.getD idx []))))
      slots0
    (slots.map (fun s => s.getD [])).flatten

/-- `Embedder.batch_embed` with the canonical completion order. -/
def batchEmbed (cfg : EmbCfg) (groupRaises : List (List Char) → Bool)
    (texts : List (List Char)) (bsArg : Option Nat) : List (List ℝ) :=
  batchEmbedWithOrder cfg groupRaises texts bsArg
    (List.range (chunkBy (effBs cfg bsArg) texts).length)

/-! ## Vector index

`VectorIndex` over an abstract metadata type `Md` (the chunk dicts).
Vectors are `List ℝ`; the FAISS backend is an external collaborator and
is modelled as a function parameter returning the `(distances[0],
indices[0])` rows of `index.search`.  All numeric definitions are
noncomputable because they live over `ℝ`. -/

inductive Metric
  | l2
  | cosine
  deriving Repr, DecidableEq

structure IdxState (Md : Type) where
  use_faiss : Bool
  metric : Metric
  index : Option (List (List ℝ))
  metadata : List Md
  dimension : Option Nat

/-- A search result: a metadata entry augmented with `score` and
`distance`. -/
structure SearchRes (Md : Type) where
  md : Md
  score : ℝ
  distance : ℝ

/-- Dot product (dimensions agree for all inputs the code reaches;
`zip` truncation stands in for numpy's broadcast requirement). -/
def dotR (a b : List ℝ) : ℝ :=
  ((a.zip b).map (fun p => p.1 * p.2)).sum

/-- Euclidean norm. -/
noncomputable def l2norm (v : List ℝ) : ℝ :=
  Real.sqrt ((v.map (fun x => x * x)).sum)

/-- L2-normalise a vector (`faiss.normalize_L2` / sklearn row
normalisation); a zero vector is left unchanged (sklearn's behaviour;
the claims never reach this case under FAISS). -/
noncomputable def l2normalize (v : List ℝ) : List ℝ :=
  if l2norm v = 0 then v else v.map (fun x => x / l2norm v)

/-- `sklearn.metrics.pairwise.cosine_similarity` of two single vectors. -/
noncomputable def cossim (a b : List ℝ) : ℝ :=
  dotR (l2normalize a) (l2normalize b)

/-- Euclidean distance (`np.sqrt(np.sum(diff * diff))`). -/
noncomputable def euclid (q v : List ℝ) : ℝ :=
  Real.sqrt (((v.zip q).map (fun p => (p.1 - p.2) * (p.1 - p.2))).sum)

/-- `np.max` of a non-empty list (the `[]` case never carries meaning:
callers guard it). -/
def listMax : List ℝ → ℝ
  | [] => 0
  | h :: t => t.foldl max h

open Classical in
/-- Stable insertion of index `i` into an index list sorted ascending
by `key`. -/
noncomputable def insertIdx (key : Nat → ℝ) (i : Nat) :
    List Nat → List Nat
  | [] => [i]
  | j :: r => if key i < key j then i :: j :: r else j :: insertIdx key i r

/-- `np.argsort`: the indices `0..n-1` sorted ascending by value.
(numpy's default sort is not stable; on ties this model fixes the
stable order, and the claims' concrete inputs have no ties.) -/
noncomputable def argsort (d : List ℝ) : List Nat :=
  (List.range d.length).foldl (fun acc i => insertIdx (fun j => d.getD j 0) i acc) []

/-- Python slice `l[-m:]`, including the `m = 0` quirk (`l[-0:]` is the
whole list). -/
def pyNegSlice (m : Nat) (l : List α) : List α :=
  if m = 0 then l else l.drop (l.length - m)

/-- Python `l[i]` for an `int` index: negative indices wrap once;
anything out of range raises `IndexError`. -/
def pyGetI (l : List α) (i : ℤ) : Except Unit α :=
  if (if i < 0 then i + l.length else i) < 0 then .error ()
  else
    match l.get? (if i < 0 then i + l.length else i).toNat with
    | some a => .ok a
    | none => .error ()

/-- `VectorIndex.build`.  `embeddings` is the 2-D float array (so all
rows have the first row's length); an empty input is a warned no-op;
otherwise metadata, dimension and the (possibly cosine-normalised)
stored matrix are replaced — with no validation of
`len(embeddings) == len(metadata)`. -/
noncomputable def build (st : IdxState Md) (embeddings : List (List ℝ))
    (metadata : List Md) : IdxState Md :=
  if embeddings = [] then st
  else
    { st with
      metadata := metadata
      dimension := some (embeddings.headD []).length
      index := some
        (if st.use_faiss ∧ st.metric = Metric.cosine then
          embeddings.map l2normalize
        else embeddings) }

/-- The FAISS-branch result loop: `for i, idx in enumerate(indices[0])`,
keeping entries with `idx < len(metadata)` and reading
`self.metadata[idx]` (a Python `int` access, which raises for
`idx < -len(metadata)`). -/
def faissCollect (md : List Md) (sims dists : List ℝ) :
    Nat → List ℤ → Except Unit (List (SearchRes Md))
  | _, [] => .ok []
  | i, idx :: rest =>
    if idx < (md.length : ℤ) then do
      let m ← pyGetI md idx
      let r ← faissCollect md sims dists (i + 1) rest
      pure ({ md := m, score := sims.getD i 0, distance := dists.getD i 0 } :: r)
    else
      faissCollect md sims dists (i + 1) rest

/-- The fallback-branch result loop over `Nat` indices produced by
`argsort` (`self.metadata[idx]` raises when `idx ≥ len(metadata)`).
`mk` builds the result from the index. -/
def npCollect (md : List Md) (mk : Nat → Md → SearchRes Md) :
    List Nat → Except Unit (List (SearchRes Md))
  | [] => .ok []
  | idx :: rest =>
    if h : idx < md.length then do
      let r ← npCollect md mk rest
      pure (mk idx (md.get ⟨idx, h⟩) :: r)
    else .error ()

/-- `VectorIndex.search`.  `backend` models `self.index.search` in the
FAISS case: stored matrix → (already normalised) query → `k` →
`(distances[0], indices[0])`.  The `.error` results are the paths on
which the Python code raises (`IndexError` on a metadata access, or
`np.max` of an empty distance array). -/
noncomputable def search
    (backend : List (List ℝ) → List ℝ → Nat → List ℝ × List ℤ)
    (st : IdxState Md) (q : List ℝ) (topK : Nat) :
    Except Unit (List (SearchRes Md)) :=
  match st.index with
  | none => .ok []
  | some M =>
    if st.use_faiss then
      let k' := min topK st.metadata.length
      let qq := if st.metric = Metric.cosine then l2normalize q else q
      let (dists, idxs) := backend M qq k'
      if st.metric = Metric.cosine then
        faissCollect st.metadata dists dists 0 idxs
      else if dists = [] then .error () -- np.max of an empty array raises
      else
        let maxDist := listMax dists + 1e-6
        faissCollect st.metadata (dists.map (fun d => 1 - d / maxDist)) dists 0 idxs
    else
      if st.metric = Metric.cosine then
        let sims := M.map (fun v => cossim q v)
        let tops := (pyNegSlice (min topK st.metadata.length) (argsort sims)).reverse
        npCollect st.metadata
          (fun idx m =>
            { md := m, score := sims.getD idx 0,
              distance := 1 - sims.getD idx 0 }) tops
      else
        let dist := M.map (fun v => euclid q v)
        let tops := (argsort dist).take (min topK st.metadata.length)
        npCollect st.metadata
          (fun idx m =>
            { md := m, score := 1 - dist.getD idx 0 / (listMax dist + 1e-6),
              distance := dist.getD idx 0 }) tops

/-! ### Persistence

`save`/`load` write a name-keyed artifact pair: the pickled metadata
envelope `{metadata, dimension, metric}` and the serialized vector
structure.  The store is a map from index name to that pair;
serialization round-trips values exactly.  An envelope's `metric` is
optional to model artifacts predating the key
(`metadata_dict.get('metric', self.metric)`). -/

structure Envelope (Md : Type) where
  metadata : List Md
  dimension : Option Nat
  metric : Option Metric

def Store (Md : Type) := List Char → Option (Envelope Md × List (List ℝ))

/-- `VectorIndex.save`.  With no built index, `faiss.write_index(None)` /
`np.save(None)` raises after the metadata file is written; since `load`
requires both artifacts, the partial result is modelled as no store
entry. -/
def save (st : IdxState Md) (name : List Char) (store : Store Md) :
    Store Md :=
  match st.index with
  | none => store
  | some M =>
    fun n =>
      if n = name then
        some ({ metadata := st.metadata, dimension := st.dimension,
                metric := some st.metric }, M)
      else store n

/-- `VectorIndex.load`: `False` and an unchanged state when either
artifact is missing; otherwise metadata, dimension and metric come from
the envelope (metric falling back to the configured one when the
envelope lacks it) and the vector structure is restored. -/
def load (st : IdxState Md) (name : List Char) (store : Store Md) :
    Bool × IdxState Md :=
  match store name with
  | none => (false, st)
  | some (env, M) =>
    (true,
      { st with
        metadata := env.metadata
        dimension := env.dimension
        metric := env.metric.getD st.metric
        index := some M })

/-! ## Query orchestrator

`CodeContextRetriever` drives embed → search → threshold filter →
format.  The embedder is deterministic per query text in the model
(`embedF`); the template rendering (`format_template.format(...)`) is
an opaque function `render` of the result (the claims only concern
result count and order, never the rendered text). -/

structure RetrModel (Md : Type) where
  /-- `self.config['retriever'].get('threshold')`. -/
  cfgThreshold : Option ℝ
  /-- `EnhancedCodeRetriever.top_k` (`config.get('top_k', 5)`). -/
  topK : Nat
  /-- `self.retriever is not None`. -/
  initialized : Bool
  idx : IdxState Md
  embedF : List Char → List ℝ
  backend : List (List ℝ) → List ℝ → Nat → List ℝ × List ℤ
  render : SearchRes Md → List Char

/-- `EnhancedCodeRetriever.raw_search`: embed, search, and swallow any
exception into `[]`. -/
noncomputable def rawSearch (R : RetrModel Md) (text : List Char)
    (topKArg : Option Nat) : List (SearchRes Md) :=
  match search R.backend R.idx (R.embedF text) (topKArg.getD R.topK) with
  | .ok rs => rs
  | .error _ => []

/-- `CodeContextRetriever.raw_query`: raises `ValueError` when the
retriever is not initialized. -/
noncomputable def rawQuery (R : RetrModel Md) (text : List Char)
    (topKArg : Option Nat) : Except Unit (List (SearchRes Md)) :=
  if ¬ R.initialized then .error ()
  else .ok (rawSearch R text topKArg)

open Classical in
/-- `CodeContextRetriever.query`: raw results, then — when a threshold
is supplied or configured — keep results with
`res.get('score', 0) >= threshold`, then render each survivor. -/
noncomputable def query (R : RetrModel Md) (text : List Char)
    (threshold : Option ℝ) : Except Unit (List (List Char)) :=
  if ¬ R.initialized then .error ()
  else
    let raw := rawSearch R text none
    let t := match threshold with
      | some t => some t
      | none => R.cfgThreshold
    let filtered := match t with
      | some t => raw.filter (fun (r : SearchRes Md) => decide (t ≤ r.score))
      | none => raw
    .ok (filtered.map R.render)

/-! ## Concrete instances used by counterexamples and witnesses -/

/-- A freshly constructed `VectorIndex` instance with the given
configuration (`VectorIndex.__init__`): no index, no metadata, no
dimension. -/
def freshIdx (useFaiss : Bool) (metric : Metric) : IdxState Md :=
  { use_faiss := useFaiss, metric := metric, index := none,
    metadata := [], dimension := none }

/-- A fresh instance with the same configuration as `st`
("a fresh `VectorIndex` instance with the same configuration"). -/
def freshLike (st : IdxState Md) : IdxState Md :=
  freshIdx st.use_faiss st.metric

/-- A trivial stand-in for the FAISS backend, used where the branch
taken never calls it. -/
def noBackend : List (List ℝ) → List ℝ → Nat → List ℝ × List ℤ :=
  fun _ _ _ => ([], [])

/-- Fallback-mode `l2` state with two stored 1-d vectors and two
metadata entries (naturals stand in for the chunk dicts). -/
noncomputable def stTwo : IdxState Nat :=
  { use_faiss := false, metric := Metric.l2,
    index := some [[0], [10]], metadata := [100, 200],
    dimension := some 1 }

/-- Fallback-mode `l2` state with two stored vectors but a single
metadata entry (the mismatch `build` accepts silently). -/
noncomputable def stMismatch : IdxState Nat :=
  { use_faiss := false, metric := Metric.l2,
    index := some [[0], [10]], metadata := [100],
    dimension := some 1 }

/-- The empty store. -/
def emptyStore : Store Md := fun _ => none

/-- A backend honouring the FAISS `IndexFlat.search` contract shapes:
`k` distances and `k` indices, indices ≥ −1 (−1 is FAISS's padding for
`k > ntotal`). -/
def padBackend : List (List ℝ) → List ℝ → Nat → List ℝ × List ℤ :=
  fun _ _ k => (List.replicate k 0, List.replicate k (-1))

/-- Embedder configuration for the `batch_embed` counterexample: cache
holds a (well-formed, non-zero) vector for `"a"` only, and the provider
fails on every call. -/
def cfgFail : EmbCfg :=
  { use_cache := true, batch_size := 32, embed_dim := 1,
    cache := fun t => if t = ['a'] then some [5] else none,
    single := fun _ => none,
    group := fun _ => none }

/-- TypeScript source with two documented functions: a doc comment
ends exactly at each `function` match start, but an *earlier* block
comment exists in the file for the second one. -/
def c8content : List Char :=
  "/** first */\nfunction a() \x7b\x7d\n/** second */\nfunction b() \x7b\x7d".toList

/-- TypeScript source whose single declaration is preceded by the
file's only block comment. -/
def c8single : List Char :=
  "/** d */\nfunction a() \x7b\x7d".toList

/-- A minimal initialized retriever model over `Nat` metadata. -/
noncomputable def retrInit : RetrModel Nat :=
  { cfgThreshold := none, topK := 5, initialized := true,
    idx := freshIdx false Metric.l2,
    embedF := fun _ => [], backend := noBackend, render := fun _ => [] }

/-! # Helper lemmas (shared across claims) -/

theorem listLength_writeRows (rows : List (List ℝ)) (ps : List (Nat × List ℝ)) :
    (writeRows rows ps).length = rows.length := by
  induction ps generalizing rows with
  | nil => rfl
  | cons p rest ih => simp [writeRows, ih]

theorem writeRows_getElem_of_ne (rows : List (List ℝ))
    (ps : List (Nat × List ℝ)) (j : Nat) (h : ∀ p ∈ ps, p.1 ≠ j) :
    (writeRows rows ps)[j]? = rows[j]? := by
  induction ps generalizing rows with
  | nil => rfl
  | cons p rest ih =>
    rw [writeRows, ih _ (fun q hq => h q (List.mem_cons_of_mem p hq)),
      List.getElem?_set_ne (h p (List.mem_cons_self p rest))]

theorem writeRows_getElem_of_mem (rows : List (List ℝ))
    (ps : List (Nat × List ℝ)) (j : Nat) (v : List ℝ)
    (hmem : (j, v) ∈ ps) (hpw : ps.Pairwise (fun p q => p.1 ≠ q.1))
    (hj : j < rows.length) :
    (writeRows rows ps)[j]? = some v := by
  induction ps generalizing rows with
  | nil => cases hmem
  | cons p rest ih =>
    rcases List.mem_cons.mp hmem with hEq | hMem
    · cases hEq
      rw [writeRows,
        writeRows_getElem_of_ne _ _ _
          (fun q hq => Ne.symm ((List.pairwise_cons.mp hpw).1 q hq)),
        List.getElem?_set_eq hj]
    · rw [writeRows]
      exact ih (rows.set p.1 p.2) hMem
        (List.pairwise_cons.mp hpw).2 (by simpa using hj)

theorem enum_pairwise_fst_ne (l : List α) :
    l.enum.Pairwise (fun p q => p.1 ≠ q.1) :=
  List.pairwise_map.mp (List.nodup_enum_map_fst l)

/-- The second components of a batch's cache misses are exactly the
filter of the batch by cache miss. -/
theorem missTexts_eq (cfg : EmbCfg) (texts : List (List Char)) :
    (texts.enum.filter (fun p => (cacheLookup cfg p.2).isNone)).map (·.2)
      = texts.filter (fun t => (cacheLookup cfg t).isNone) := by
  have h := @List.filter_map _ _ (fun t => (cacheLookup cfg t).isNone)
    Prod.snd texts.enum
  rw [List.enum_map_snd] at h
  rw [h]
  rfl

/-- The matrix of rows after the cache-hit pass: position `j` holds the
cached vector when `texts[j]` hits the cache, and zeros otherwise. -/
theorem writeHits_getElem (cfg : EmbCfg) (texts : List (List Char)) (j : Nat) :
    (writeRows (List.replicate texts.length (zeros cfg.embed_dim))
      ((texts.enum.filter (fun p => (cacheLookup cfg p.2).isSome)).map
        (fun p => (p.1, (cacheLookup cfg p.2).getD (zeros cfg.embed_dim)))))[j]?
    = (texts[j]?).map
        (fun t => (cacheLookup cfg t).getD (zeros cfg.embed_dim)) := by
  have hpw : ((texts.enum.filter (fun p => (cacheLookup cfg p.2).isSome)).map
      (fun p => (p.1, (cacheLookup cfg p.2).getD (zeros cfg.embed_dim)))).Pairwise
        (fun p q => p.1 ≠ q.1) :=
    List.pairwise_map.mpr
      (((enum_pairwise_fst_ne texts).filter _).imp (fun h => h))
  by_cases hj : j < texts.length
  · obtain ⟨t, ht⟩ : ∃ t, texts[j]? = some t :=
      ⟨texts[j], List.getElem?_eq_getElem hj⟩
    rw [ht]
    cases hc : cacheLookup cfg t with
    | some v =>
      have hmem : (j, v) ∈
          (texts.enum.filter (fun p => (cacheLookup cfg p.2).isSome)).map
            (fun p => (p.1, (cacheLookup cfg p.2).getD (zeros cfg.embed_dim))) := by
        refine List.mem_map.mpr ⟨(j, t), ?_, by simp [hc]⟩
        refine List.mem_filter.mpr ⟨?_, by simp [hc]⟩
        exact List.mem_enum_iff_get?.mpr (by simpa [List.get?_eq_getElem?] using ht)
      rw [writeRows_getElem_of_mem _ _ _ _ hmem hpw (by simpa using hj)]
      simp [hc]
    | none =>
      have hne : ∀ p ∈ (texts.enum.filter
          (fun p => (cacheLookup cfg p.2).isSome)).map
            (fun p => (p.1, (cacheLookup cfg p.2).getD (zeros cfg.embed_dim))),
          p.1 ≠ j := by
        intro p hp
        obtain ⟨q, hq, rfl⟩ := List.mem_map.mp hp
        have hqe := (List.mem_filter.mp hq).1
        have hqs := (List.mem_filter.mp hq).2
        intro hEq
        have : texts[q.1]? = some q.2 := by
          simpa [List.get?_eq_getElem?] using List.mem_enum_iff_get?.mp hqe
        rw [hEq, ht] at this
        cases this
        simp [hc] at hqs
      rw [writeRows_getElem_of_ne _ _ _ hne, List.getElem?_replicate,
        if_pos hj]
      simp [hc]
  · have hlen : (writeRows (List.replicate texts.length (zeros cfg.embed_dim))
        ((texts.enum.filter (fun p => (cacheLookup cfg p.2).isSome)).map
          (fun p => (p.1, (cacheLookup cfg p.2).getD (zeros cfg.embed_dim))))).length
        = texts.length := by
      rw [listLength_writeRows, List.length_replicate]
    have h1 : (writeRows (List.replicate texts.length (zeros cfg.embed_dim))
        ((texts.enum.filter (fun p => (cacheLookup cfg p.2).isSome)).map
          (fun p => (p.1, (cacheLookup cfg p.2).getD (zeros cfg.embed_dim)))))[j]?
        = none := List.getElem?_eq_none (by rw [hlen]; omega)
    have h2 : texts[j]? = none := List.getElem?_eq_none (by omega)
    rw [h1, h2]
    rfl

/-- `_process_batch` when the provider call for the batch's cache
misses fails: cache hits keep their cached vectors, misses stay zero. -/
theorem processBatch_provider_fail (cfg : EmbCfg) (texts : List (List Char))
    (hfail : cfg.group (texts.filter (fun t => (cacheLookup cfg t).isNone))
      = none) :
    processBatch cfg texts
      = texts.map (fun t => (cacheLookup cfg t).getD (zeros cfg.embed_dim)) := by
  have hrows : writeRows (List.replicate texts.length (zeros cfg.embed_dim))
      ((texts.enum.filter (fun p => (cacheLookup cfg p.2).isSome)).map
        (fun p => (p.1, (cacheLookup cfg p.2).getD (zeros cfg.embed_dim))))
      = texts.map (fun t => (cacheLookup cfg t).getD (zeros cfg.embed_dim)) := by
    apply List.ext_getElem?
    intro j
    rw [writeHits_getElem, List.getElem?_map]
  unfold processBatch
  rw [missTexts_eq, hfail] at *
  simp only [missTexts_eq, hfail]
  split
  · exact hrows
  · exact hrows

theorem processBatch_length (cfg : EmbCfg) (texts : List (List Char)) :
    (processBatch cfg texts).length = texts.length := by
  unfold processBatch
  split
  · rw [listLength_writeRows, List.length_replicate]
  · split
    · rw [listLength_writeRows, listLength_writeRows, List.length_replicate]
    · rw [listLength_writeRows, List.length_replicate]

theorem batchResult_length (cfg : EmbCfg) (gr : List (List Char) → Bool)
    (batch : List (List Char)) :
    (batchResult cfg gr batch).length = batch.length := by
  unfold batchResult
  split
  · rw [List.length_replicate]
  · exact processBatch_length cfg batch

/-- Slot array after the `as_completed` loop: position `j` holds batch
`j`'s result as soon as `j` completed, independent of the completion
order. -/
theorem foldSlots_getElem (f : Nat → List (List ℝ)) (order : List Nat)
    (slots : List (Option (List (List ℝ)))) (j : Nat) :
    (order.foldl (fun s idx => s.set idx (some (f idx))) slots)[j]?
      = if j ∈ order ∧ j < slots.length then some (some (f j))
        else slots[j]? := by
  induction order generalizing slots with
  | nil => simp
  | cons o rest ih =>
    rw [List.foldl_cons, ih, List.length_set]
    by_cases hj : j < slots.length
    · by_cases hmem : j ∈ rest
      · simp [hmem, hj, List.mem_cons]
      · simp only [hmem, false_and, if_false]
        rw [List.getElem?_set]
        by_cases ho : o = j
        · subst ho
          simp [hj, List.mem_cons]
        · have ho' : ¬ j = o := fun h => ho h.symm
          simp [ho, ho', hj, hmem, List.mem_cons]
    · simp only [hj, and_false, if_false]
      rw [List.getElem?_set]
      by_cases ho : o = j
      · subst ho
        rw [if_pos rfl, if_neg hj, List.getElem?_eq_none (not_lt.mp hj)]
      · rw [if_neg ho]

theorem rangeMap_getD (l : List α) (d : α) :
    (List.range l.length).map (fun i => l.getD i d) = l := by
  apply List.ext_getElem?
  intro n
  rw [List.getElem?_map]
  by_cases h : n < l.length
  · rw [List.getElem?_range h]
    simp [List.getD_eq_getElem?_getD, List.getElem?_eq_getElem h]
  · rw [List.getElem?_eq_none (by simpa using not_lt.mp h),
      List.getElem?_eq_none (not_lt.mp h)]
    rfl

/-- `batch_embed` equals the concatenation of the per-batch results in
batch order, for every completion order that covers all batches. -/
theorem batchEmbedWithOrder_flatten (cfg : EmbCfg)
    (gr : List (List Char) → Bool) (texts : List (List Char))
    (bsArg : Option Nat) (order : List Nat)
    (horder : ∀ i, i < (chunkBy (effBs cfg bsArg) texts).length → i ∈ order) :
    batchEmbedWithOrder cfg gr texts bsArg order
      = ((chunkBy (effBs cfg bsArg) texts).map
          (fun b => batchResult cfg gr b)).flatten := by
  by_cases hne : texts = []
  · subst hne
    simp [batchEmbedWithOrder, chunkBy, chunkAux]
  · unfold batchEmbedWithOrder
    rw [if_neg hne]
    show (List.map (fun s => s.getD [])
      (order.foldl (fun slots idx => slots.set idx (some (batchResult cfg gr
        ((chunkBy (effBs cfg bsArg) texts).getD idx []))))
        (List.replicate (chunkBy (effBs cfg bsArg) texts).length none))).flatten
      = _
    have hslots : (order.foldl
        (fun slots idx => slots.set idx
          (some (batchResult cfg gr
            ((chunkBy (effBs cfg bsArg) texts).getD idx []))))
        (List.replicate (chunkBy (effBs cfg bsArg) texts).length none))
        = (List.range (chunkBy (effBs cfg bsArg) texts).length).map
            (fun i => some (batchResult cfg gr
              ((chunkBy (effBs cfg bsArg) texts).getD i []))) := by
      apply List.ext_getElem?
      intro j
      rw [foldSlots_getElem
        (fun idx => batchResult cfg gr
          ((chunkBy (effBs cfg bsArg) texts).getD idx []))]
      rw [List.getElem?_map]
      by_cases hj : j < (chunkBy (effBs cfg bsArg) texts).length
      · rw [if_pos ⟨horder j hj, by simpa using hj⟩, List.getElem?_range hj]
        rfl
      · rw [if_neg (by simp; omega), List.getElem?_replicate, if_neg hj,
          List.getElem?_eq_none (by simpa using not_lt.mp hj)]
        rfl
    rw [hslots, List.map_map]
    have : ((List.range (chunkBy (effBs cfg bsArg) texts).length).map
        ((fun s => s.getD []) ∘ (fun i => some (batchResult cfg gr
          ((chunkBy (effBs cfg bsArg) texts).getD i [])))))
        = (List.range (chunkBy (effBs cfg bsArg) texts).length).map
            (fun i => batchResult cfg gr
              ((chunkBy (effBs cfg bsArg) texts).getD i [])) := by
      apply List.map_congr_left
      intro a _
      rfl
    rw [this]
    congr 1
    have := rangeMap_getD (chunkBy (effBs cfg bsArg) texts) []
    calc (List.range (chunkBy (effBs cfg bsArg) texts).length).map
          (fun i => batchResult cfg gr
            ((chunkBy (effBs cfg bsArg) texts).getD i []))
        = ((List.range (chunkBy (effBs cfg bsArg) texts).length).map
            (fun i => (chunkBy (effBs cfg bsArg) texts).getD i [])).map
              (fun b => batchResult cfg gr b) := by
          rw [List.map_map]; rfl
      _ = (chunkBy (effBs cfg bsArg) texts).map
            (fun b => batchResult cfg gr b) := by rw [this]

theorem chunkAux_fuel_eq (bs : Nat) (hbs : 0 < bs) :
    ∀ (f₁ f₂ : Nat) (l : List α), l.length < f₁ → l.length < f₂ →
      chunkAux f₁ bs l = chunkAux f₂ bs l := by
  intro f₁
  induction f₁ with
  | zero => intro f₂ l h1 _; omega
  | succ f₁ ih =>
    intro f₂ l h1 h2
    match f₂, l with
    | f₂ + 1, [] => rfl
    | f₂ + 1, a :: l' =>
      show (a :: l').take bs :: chunkAux f₁ bs ((a :: l').drop bs)
        = (a :: l').take bs :: chunkAux f₂ bs ((a :: l').drop bs)
      congr 1
      apply ih <;>
        simp only [List.length_drop, List.length_cons] at h1 h2 ⊢ <;> omega

theorem chunkAux_succ_cons (fuel bs : Nat) (a : α) (l : List α) :
    chunkAux (fuel + 1) bs (a :: l)
      = (a :: l).take bs :: chunkAux fuel bs ((a :: l).drop bs) := rfl

theorem chunkBy_cons_eq (bs : Nat) (hbs : 0 < bs) (l : List α)
    (hl : l ≠ []) :
    chunkBy bs l = l.take bs :: chunkBy bs (l.drop bs) := by
  cases l with
  | nil => exact absurd rfl hl
  | cons a l' =>
    simp only [chunkBy, List.length_cons, chunkAux_succ_cons]
    congr 1
    apply chunkAux_fuel_eq bs hbs
    · simp only [List.length_drop, List.length_cons]
      omega
    · omega

theorem chunkBy_flatten (bs : Nat) (hbs : 0 < bs) (l : List α) :
    (chunkBy bs l).flatten = l := by
  suffices h : ∀ n (l : List α), l.length = n → (chunkBy bs l).flatten = l from
    h l.length l rfl
  intro n
  induction n using Nat.strong_induction_on with
  | _ n ih =>
    intro l hn
    cases l with
    | nil => rfl
    | cons a l' =>
      rw [chunkBy_cons_eq bs hbs _ (by simp), List.flatten_cons,
        ih ((a :: l').drop bs).length (by subst hn; simp; omega) _ rfl,
        List.take_append_drop]

/-- Indexing into the concatenation of per-chunk results: entry `i`
comes from chunk `i / bs` at offset `i % bs`, and that chunk holds
`texts[i]` there. -/
theorem flatten_chunk_getElem (g : List (List Char) → List (List ℝ))
    (hg : ∀ c, (g c).length = c.length) (bs : Nat) (hbs : 0 < bs)
    (texts : List (List Char)) (i : Nat) (hi : i < texts.length) :
    (((chunkBy bs texts).map g).flatten)[i]?
        = (g ((chunkBy bs texts).getD (i / bs) []))[i % bs]?
      ∧ ((chunkBy bs texts).getD (i / bs) [])[i % bs]? = texts[i]? := by
  suffices h : ∀ n (texts : List (List Char)) (i : Nat), i < texts.length →
      texts.length = n →
      (((chunkBy bs texts).map g).flatten)[i]?
          = (g ((chunkBy bs texts).getD (i / bs) []))[i % bs]?
        ∧ ((chunkBy bs texts).getD (i / bs) [])[i % bs]? = texts[i]? from
    h texts.length texts i hi rfl
  intro n
  induction n using Nat.strong_induction_on with
  | _ n ih =>
    intro texts i hi hn
    have hne : texts ≠ [] := by
      intro h; subst h; simp at hi
    rw [chunkBy_cons_eq bs hbs texts hne]
    simp only [List.map_cons, List.flatten_cons]
    by_cases hib : i < bs
    · have hdiv : i / bs = 0 := Nat.div_eq_of_lt hib
      have hmod : i % bs = i := Nat.mod_eq_of_lt hib
      have hlt : i < (g (texts.take bs)).length := by
        rw [hg, List.length_take]
        exact lt_min hib hi
      constructor
      · rw [List.getElem?_append, if_pos hlt, hdiv, hmod,
          List.getD_cons_zero]
      · rw [hdiv, hmod, List.getD_cons_zero, List.getElem?_take,
          if_pos hib]
    · have hble : bs ≤ i := not_lt.mp hib
      have hlen : (g (texts.take bs)).length = bs := by
        rw [hg, List.length_take]
        omega
      have hdiv : i / bs = (i - bs) / bs + 1 := Nat.div_eq_sub_div hbs hble
      have hmod : i % bs = (i - bs) % bs := Nat.mod_eq_sub_mod hble
      have hi' : i - bs < (texts.drop bs).length := by
        rw [List.length_drop]; omega
      have hIH := ih ((texts.drop bs)).length
        (by subst hn; rw [List.length_drop]; omega)
        (texts.drop bs) (i - bs) hi' rfl
      constructor
      · rw [List.getElem?_append, if_neg (by omega), hlen, hdiv, hmod,
          List.getD_cons_succ]
        exact hIH.1
      · rw [hdiv, hmod, List.getD_cons_succ, hIH.2, List.getElem?_drop]
        congr 1
        omega

theorem insertIdx_perm (key : Nat → ℝ) (i : Nat) (l : List Nat) :
    (insertIdx key i l).Perm (i :: l) := by
  induction l with
  | nil => exact List.Perm.refl _
  | cons j r ih =>
    rw [insertIdx]
    split
    · exact List.Perm.refl _
    · exact (ih.cons j).trans (List.Perm.swap i j r)

theorem foldl_insertIdx_perm (key : Nat → ℝ) (l acc : List Nat) :
    (l.foldl (fun a i => insertIdx key i a) acc).Perm (l ++ acc) := by
  induction l generalizing acc with
  | nil => exact List.Perm.refl _
  | cons i rest ih =>
    rw [List.foldl_cons]
    refine (ih (insertIdx key i acc)).trans ?_
    refine (List.Perm.append_left rest (insertIdx_perm key i acc)).trans ?_
    exact List.perm_middle

theorem argsort_perm (d : List ℝ) :
    (argsort d).Perm (List.range d.length) := by
  unfold argsort
  have h := foldl_insertIdx_perm (fun j => d.getD j 0) (List.range d.length) []
  simpa using h

theorem argsort_length (d : List ℝ) : (argsort d).length = d.length := by
  rw [(argsort_perm d).length_eq, List.length_range]

theorem argsort_mem_lt (d : List ℝ) (i : Nat) (h : i ∈ argsort d) :
    i < d.length :=
  List.mem_range.mp ((argsort_perm d).mem_iff.mp h)

theorem pyGetI_ok (l : List Md) (i : ℤ) (hge : -1 ≤ i)
    (hlt : i < l.length) (hne : l ≠ []) :
    ∃ m, pyGetI l i = .ok m := by
  have hlen : 1 ≤ l.length := List.length_pos.mpr hne
  unfold pyGetI
  have h1 : ¬ ((if i < 0 then i + (l.length : ℤ) else i) < 0) := by
    split <;> omega
  have h2 : (if i < 0 then i + (l.length : ℤ) else i).toNat < l.length := by
    split <;> omega
  rw [if_neg h1]
  have h3 : l.get? (if i < 0 then i + (l.length : ℤ) else i).toNat
      = some (l.get ⟨_, h2⟩) := by
    rw [List.get?_eq_getElem?, List.getElem?_eq_getElem h2]
    rfl
  rw [h3]
  exact ⟨_, rfl⟩

theorem faissCollect_ok (md : List Md) (sims dists : List ℝ)
    (hne : md ≠ []) (idxs : List ℤ) (hidx : ∀ idx ∈ idxs, -1 ≤ idx) :
    ∀ i, ∃ rs, faissCollect md sims dists i idxs = .ok rs ∧
      rs.length ≤ idxs.length := by
  induction idxs with
  | nil => exact fun i => ⟨[], rfl, by simp⟩
  | cons idx rest ih =>
    intro i
    have hge : -1 ≤ idx := hidx idx (List.mem_cons_self idx rest)
    have ihr := ih (fun j hj => hidx j (List.mem_cons_of_mem idx hj)) (i + 1)
    obtain ⟨rs, hrs, hlen⟩ := ihr
    rw [faissCollect]
    by_cases hlt : idx < (md.length : ℤ)
    · obtain ⟨m, hm⟩ := pyGetI_ok md idx hge hlt hne
      rw [if_pos hlt]
      refine ⟨(⟨m, sims.getD i 0, dists.getD i 0⟩ : SearchRes Md) :: rs, ?_, ?_⟩
      · rw [hm, hrs]
        rfl
      · simpa using Nat.succ_le_succ hlen
    · rw [if_neg hlt]
      exact ⟨rs, hrs, le_trans hlen (by simp)⟩

theorem npCollect_ok (md : List Md) (mk : Nat → Md → SearchRes Md)
    (idxs : List Nat) (h : ∀ i ∈ idxs, i < md.length) :
    ∃ rs, npCollect md mk idxs = .ok rs ∧ rs.length = idxs.length ∧
      ∀ r ∈ rs, ∃ i m, r = mk i m := by
  induction idxs with
  | nil => exact ⟨[], rfl, rfl, by simp⟩
  | cons idx rest ih =>
    obtain ⟨rs, hrs, hlen, hall⟩ :=
      ih (fun j hj => h j (List.mem_cons_of_mem idx hj))
    have hlt : idx < md.length := h idx (List.mem_cons_self idx rest)
    refine ⟨mk idx (md.get ⟨idx, hlt⟩) :: rs, ?_, by simp [hlen], ?_⟩
    · rw [npCollect, dif_pos hlt, hrs]
      rfl
    · intro r hr
      rcases List.mem_cons.mp hr with hEq | hMem
      · exact ⟨idx, md.get ⟨idx, hlt⟩, hEq⟩
      · exact hall r hMem

theorem npCollect_ok_forall (md : List Md) (mk : Nat → Md → SearchRes Md)
    (idxs : List Nat) (rs : List (SearchRes Md))
    (h : npCollect md mk idxs = .ok rs) :
    ∀ r ∈ rs, ∃ i m, r = mk i m := by
  induction idxs generalizing rs with
  | nil =>
    cases h
    simp
  | cons idx rest ih =>
    rw [npCollect] at h
    split at h
    · cases hrest : npCollect md mk rest with
      | error e => rw [hrest] at h; cases h
      | ok rs' =>
        rw [hrest] at h
        cases h
        intro r hr
        rcases List.mem_cons.mp hr with hEq | hMem
        · exact ⟨idx, _, hEq⟩
        · exact ih rs' hrest r hMem
    · cases h

/-- The fallback `l2` branch of `search`, unfolded. -/
theorem search_fallback_l2
    (backend : List (List ℝ) → List ℝ → Nat → List ℝ × List ℤ)
    (st : IdxState Md) (M : List (List ℝ)) (q : List ℝ) (topK : Nat)
    (hf : st.use_faiss = false) (hm : st.metric = Metric.l2)
    (hidx : st.index = some M) :
    search backend st q topK = npCollect st.metadata
      (fun idx m =>
        { md := m,
          score := 1 - (M.map (fun v => euclid q v)).getD idx 0
            / (listMax (M.map (fun v => euclid q v)) + 1e-6),
          distance := (M.map (fun v => euclid q v)).getD idx 0 })
      ((argsort (M.map (fun v => euclid q v))).take
        (min topK st.metadata.length)) := by
  unfold search
  rw [hidx]
  simp [hf, hm]

/-- The fallback `cosine` branch of `search`, unfolded. -/
theorem search_fallback_cosine
    (backend : List (List ℝ) → List ℝ → Nat → List ℝ × List ℤ)
    (st : IdxState Md) (M : List (List ℝ)) (q : List ℝ) (topK : Nat)
    (hf : st.use_faiss = false) (hm : st.metric = Metric.cosine)
    (hidx : st.index = some M) :
    search backend st q topK = npCollect st.metadata
      (fun idx m =>
        { md := m,
          score := (M.map (fun v => cossim q v)).getD idx 0,
          distance := 1 - (M.map (fun v => cossim q v)).getD idx 0 })
      ((pyNegSlice (min topK st.metadata.length)
        (argsort (M.map (fun v => cossim q v)))).reverse) := by
  unfold search
  rw [hidx]
  simp [hf, hm]

theorem euclid_single (a b : ℝ) : euclid [a] [b] = |b - a| := by
  unfold euclid
  rw [show ([b].zip [a]) = [(b, a)] from rfl]
  rw [List.map_cons, List.map_nil, List.sum_cons, List.sum_nil, add_zero,
    ← pow_two, Real.sqrt_sq_eq_abs]

theorem argsort_pair_asc (a b : ℝ) (h : ¬ b < a) :
    argsort [a, b] = [0, 1] := by
  unfold argsort
  rw [show List.range ([a, b] : List ℝ).length = [0, 1] from rfl,
    List.foldl_cons, List.foldl_cons, List.foldl_nil,
    show insertIdx (fun j => ([a, b] : List ℝ).getD j 0) 0 [] = [0] from rfl,
    insertIdx, if_neg (by simpa using h),
    show insertIdx (fun j => ([a, b] : List ℝ).getD j 0) 1 [] = [1] from rfl]

theorem argsort_pair_desc (a b : ℝ) (h : b < a) :
    argsort [a, b] = [1, 0] := by
  unfold argsort
  rw [show List.range ([a, b] : List ℝ).length = [0, 1] from rfl,
    List.foldl_cons, List.foldl_cons, List.foldl_nil,
    show insertIdx (fun j => ([a, b] : List ℝ).getD j 0) 0 [] = [0] from rfl,
    insertIdx, if_pos (by simpa using h)]

theorem listMax_pair (a b : ℝ) : listMax [a, b] = max a b := rfl

/-- Concrete evaluation of the fallback `l2` search on `stTwo` with
query `[1]` and `top_k = 1`: distances to the stored vectors are
`[1, 9]`, the closest item (metadata `100`, distance `1`) is returned,
and its score is normalised by the *global* maximum distance `9`. -/
theorem search_stTwo_eval :
    search noBackend stTwo [1] 1
      = .ok [⟨100, 1 - 1 / (9 + 1e-6), 1⟩] := by
  have hd : (([[0], [10]] : List (List ℝ)).map (fun v => euclid [1] v))
      = [1, 9] := by
    rw [List.map_cons, List.map_cons, List.map_nil,
      euclid_single 1 0, euclid_single 1 10]
    norm_num
  rw [search_fallback_l2 noBackend stTwo [[0], [10]] [1] 1 rfl rfl rfl, hd]
  rw [argsort_pair_asc 1 9 (by norm_num)]
  rw [show (([0, 1] : List Nat).take (min 1 stTwo.metadata.length)) = [0]
    from rfl]
  rw [npCollect, dif_pos (show 0 < stTwo.metadata.length by norm_num [stTwo]),
    npCollect]
  show Except.ok _ = _
  congr 1
  rw [listMax_pair]
  norm_num [stTwo]

/-- Concrete evaluation showing the fallback branch raising: two stored
vectors but a single metadata entry; the nearest vector is the second
one, whose index `1` is out of range for `metadata`. -/
theorem search_stMismatch_eval :
    search noBackend stMismatch [9] 1 = .error () := by
  have hd : (([[0], [10]] : List (List ℝ)).map (fun v => euclid [9] v))
      = [9, 1] := by
    rw [List.map_cons, List.map_cons, List.map_nil,
      euclid_single 9 0, euclid_single 9 10]
    norm_num
  rw [search_fallback_l2 noBackend stMismatch [[0], [10]] [9] 1 rfl rfl rfl, hd]
  rw [argsort_pair_desc 9 1 (by norm_num)]
  rw [show (([1, 0] : List Nat).take (min 1 stMismatch.metadata.length)) = [1]
    from rfl]
  rw [npCollect, dif_neg (show ¬ 1 < stMismatch.metadata.length by
    norm_num [stMismatch])]

theorem countNl_take_mono (l : List Char) (i j : Nat) (h : i ≤ j) :
    countNl (l.take i) ≤ countNl (l.take j) := by
  have h1 : l.take i = (l.take j).take i := by
    rw [List.take_take, min_eq_left h]
  rw [h1]
  exact ((List.take_sublist i (l.take j)).filter _).length_le

theorem findSubFrom_ge (pat s : List Char) (i j : Nat)
    (h : findSubFrom pat s i = some j) : i ≤ j := by
  have key : ∀ fuel k j, findSubFrom.go pat s fuel k = some j → k ≤ j := by
    intro fuel
    induction fuel with
    | zero => intro k j h; cases h
    | succ fuel ih =>
      intro k j h
      rw [findSubFrom.go] at h
      split at h
      · cases h
      · split at h
        · cases h
          exact le_refl _
        · exact le_trans (Nat.le_succ k) (ih (k + 1) j h)
  exact key _ i j h

theorem braceWalk_fst_ge (cs : List Char) (pos count : Nat) :
    pos ≤ (braceWalk cs pos count).1 := by
  induction cs generalizing pos count with
  | nil =>
    cases count with
    | zero => exact le_refl _
    | succ c => exact le_refl _
  | cons c rest ih =>
    cases count with
    | zero => exact le_refl _
    | succ n =>
      have hstep : braceWalk (c :: rest) pos (n + 1)
          = braceWalk rest (pos + 1)
            (if c = '\x7b' then n + 1 + 1
             else if c = '\x7d' then n + 1 - 1 else n + 1) := rfl
      rw [hstep]
      exact le_trans (Nat.le_succ pos) (ih (pos + 1) _)

theorem tsExtractCodeBlock_eq (content : List Char)
    (startPos openPos : Nat)
    (hf : findSubFrom ['\x7b'] content startPos = some openPos) :
    tsExtractCodeBlock content startPos
      = if (braceWalk (content.drop (openPos + 1)) (openPos + 1) 1).2 ≠ 0
        then ([], 0, 0)
        else ((content.take
            ((braceWalk (content.drop (openPos + 1)) (openPos + 1) 1).1)).drop
              startPos,
          countNl (content.take startPos) + 1,
          countNl (content.take
            ((braceWalk (content.drop (openPos + 1)) (openPos + 1) 1).1)) + 1)
    := by
  unfold tsExtractCodeBlock
  rw [hf]

/-- A non-empty snippet from `_extract_code_block` comes with
`line_start ≤ line_end`. -/
theorem tsExtractCodeBlock_lines (content : List Char) (startPos : Nat)
    (h : (tsExtractCodeBlock content startPos).1 ≠ []) :
    (tsExtractCodeBlock content startPos).2.1
      ≤ (tsExtractCodeBlock content startPos).2.2 := by
  cases hf : findSubFrom ['\x7b'] content startPos with
  | none =>
    have hres : tsExtractCodeBlock content startPos = ([], 0, 0) := by
      unfold tsExtractCodeBlock
      rw [hf]
    rw [hres] at h
    exact absurd rfl h
  | some openPos =>
    rw [tsExtractCodeBlock_eq content startPos openPos hf] at h ⊢
    by_cases hc :
        (braceWalk (content.drop (openPos + 1)) (openPos + 1) 1).2 ≠ 0
    · rw [if_pos hc] at h
      exact absurd rfl h
    · rw [if_neg hc] at h ⊢
      have h1 : startPos ≤ openPos := findSubFrom_ge _ _ _ _ hf
      have h2 : openPos + 1
          ≤ (braceWalk (content.drop (openPos + 1)) (openPos + 1) 1).1 :=
        braceWalk_fst_ge (content.drop (openPos + 1)) (openPos + 1) 1
      exact Nat.succ_le_succ (countNl_take_mono content _ _ (by omega))

theorem findSubFrom_startsAt (pat s : List Char) (i j : Nat)
    (h : findSubFrom pat s i = some j) : startsAt pat s j = true := by
  have key : ∀ fuel k j, findSubFrom.go pat s fuel k = some j →
      startsAt pat s j = true := by
    intro fuel
    induction fuel with
    | zero => intro k j h; cases h
    | succ fuel ih =>
      intro k j h
      rw [findSubFrom.go] at h
      split at h
      · cases h
      · split at h
        · cases h
          assumption
        · exact ih (k + 1) j h
  exact key _ i j h

/-- A non-empty snippet from `_extract_code_block` always contains the
opening brace it was cut around (`content.find('\x7b', start_pos)` lies
inside `content[start_pos:end_pos]`). -/
theorem tsExtractCodeBlock_brace (content : List Char) (startPos : Nat)
    (h : (tsExtractCodeBlock content startPos).1 ≠ []) :
    '\x7b' ∈ (tsExtractCodeBlock content startPos).1 := by
  cases hf : findSubFrom ['\x7b'] content startPos with
  | none =>
    have hres : tsExtractCodeBlock content startPos = ([], 0, 0) := by
      unfold tsExtractCodeBlock
      rw [hf]
    rw [hres] at h
    exact absurd rfl h
  | some openPos =>
    rw [tsExtractCodeBlock_eq content startPos openPos hf] at h ⊢
    by_cases hc :
        (braceWalk (content.drop (openPos + 1)) (openPos + 1) 1).2 ≠ 0
    · rw [if_pos hc] at h
      exact absurd rfl h
    · rw [if_neg hc]
      have h1 : startPos ≤ openPos := findSubFrom_ge _ _ _ _ hf
      have h2 : openPos + 1
          ≤ (braceWalk (content.drop (openPos + 1)) (openPos + 1) 1).1 :=
        braceWalk_fst_ge (content.drop (openPos + 1)) (openPos + 1) 1
      have hs := findSubFrom_startsAt _ _ _ _ hf
      rw [startsAt] at hs
      obtain ⟨t, ht⟩ := List.isPrefixOf_iff_prefix.mp hs
      have hget : content[openPos]? = some '\x7b' := by
        have hd : (content.drop openPos)[0]? = some '\x7b' := by
          rw [← ht]; simp
        rw [List.getElem?_drop] at hd
        simpa using hd
      have hkey : ((content.take
          ((braceWalk (content.drop (openPos + 1)) (openPos + 1) 1).1)).drop
            startPos)[openPos - startPos]? = some '\x7b' := by
        rw [List.getElem?_drop,
          show startPos + (openPos - startPos) = openPos from by omega,
          List.getElem?_take]
        simpa [show openPos
            < (braceWalk (content.drop (openPos + 1)) (openPos + 1) 1).1
          from by omega] using hget
      exact List.getElem?_mem hkey

/-- A list containing a non-whitespace character does not `strip()` to
empty. -/
theorem pyStrip_ne_nil_of_mem (l : List Char) (c : Char) (hc : c ∈ l)
    (hw : pyWs c = false) : pyStrip l ≠ [] := by
  intro hnil
  unfold pyStrip pyRstrip at hnil
  rw [List.reverse_eq_nil_iff, List.dropWhile_eq_nil_iff] at hnil
  have hsplit : c ∈ l.takeWhile pyWs ∨ c ∈ l.dropWhile pyWs := by
    rw [← List.mem_append, List.takeWhile_append_dropWhile]
    exact hc
  rcases hsplit with h | h
  · have := List.mem_takeWhile_imp h
    rw [hw] at this
    simp at this
  · have := hnil c (List.mem_reverse.mpr h)
    rw [hw] at this
    simp at this

theorem tsChunksOf_props (fp content typ : List Char)
    (ms : List (Nat × List Char)) :
    ∀ c ∈ tsChunksOf fp content typ ms,
      c.line_start ≤ c.line_end ∧ c.full_text ≠ [] ∧
      pyStrip c.full_text ≠ [] := by
  intro c hc
  obtain ⟨⟨startPos, name⟩, _, hsome⟩ := List.mem_filterMap.mp hc
  dsimp only at hsome
  rcases hcb : tsExtractCodeBlock content startPos with ⟨snip, ls, le⟩
  rw [hcb] at hsome
  dsimp only at hsome
  by_cases hs : snip = []
  · rw [if_pos hs] at hsome
    cases hsome
  · rw [if_neg hs] at hsome
    have hlines := tsExtractCodeBlock_lines content startPos
      (by rw [hcb]; exact hs)
    rw [hcb] at hlines
    have hbrace : '\x7b' ∈ snip := by
      have hb := tsExtractCodeBlock_brace content startPos
        (by rw [hcb]; exact hs)
      rw [hcb] at hb
      exact hb
    cases hsome
    refine ⟨hlines, ?_, ?_⟩
    · dsimp only
      split
      · cases snip with
        | nil => exact absurd rfl hs
        | cons a t => simp
      · exact hs
    · dsimp only
      split
      · exact pyStrip_ne_nil_of_mem _ '\x7b'
          (List.mem_append_left _ hbrace) (by decide)
      · exact pyStrip_ne_nil_of_mem _ '\x7b' hbrace (by decide)

/-- Every chunk the markdown section loop emits is a `section` chunk
with the running line range and a content that does not strip to
empty. -/
theorem mdSectionChunks_props (fp : List Char)
    (sections : List (List Char × List Char)) (lc : Nat) :
    ∀ c ∈ mdSectionChunks fp sections lc,
      c.line_start ≤ c.line_end ∧ c.typ = "section".toList ∧
      pyStrip c.full_text ≠ [] := by
  induction sections generalizing lc with
  | nil => intro c hc; cases hc
  | cons sec rest ih =>
    intro c hc
    rcases sec with ⟨heading, content⟩
    rw [mdSectionChunks] at hc
    split at hc
    · exact ih _ c hc
    · rcases List.mem_cons.mp hc with hEq | hMem
      · subst hEq
        refine ⟨by dsimp only; omega, rfl, by assumption⟩
      · exact ih _ c hMem

theorem findSubFrom_first (pat s : List Char) (i t : Nat) (hit : i ≤ t)
    (htle : t ≤ s.length) (hocc : startsAt pat s t = true)
    (hnone : ∀ j, i ≤ j → j < t → startsAt pat s j = false) :
    findSubFrom pat s i = some t := by
  have key : ∀ fuel j, i ≤ j → j ≤ t → t - j < fuel →
      findSubFrom.go pat s fuel j = some t := by
    intro fuel
    induction fuel with
    | zero => intro j _ _ h; omega
    | succ fuel ih =>
      intro j hij hjt hlt
      rw [findSubFrom.go, if_neg (by omega : ¬ j > s.length)]
      by_cases hjeq : j = t
      · subst hjeq
        simp [hocc]
      · rw [hnone j hij (by omega)]
        simpa using ih (j + 1) (by omega) (by omega) (by omega)
  exact key (s.length + 1) i (le_refl i) hit (by omega)

/-- `re.search(r'/\*\*(.*?)\*/', sa)` when `sa` decomposes as
`pre ++ "/**" ++ interior ++ "*/"` with no earlier `/**` and no `*/`
inside the interior: the match is exactly that comment. -/
theorem firstBlockComment_eq (sa pre interior : List Char)
    (hsa : sa = pre ++ ['/', '*', '*'] ++ interior ++ ['*', '/'])
    (hfirst : ∀ j, j < pre.length →
      startsAt ['/', '*', '*'] sa j = false)
    (hint : ¬ (['*', '/'] <:+: interior)) :
    tsExtractDocstring.firstBlockComment sa
      = some (['/', '*', '*'] ++ interior ++ ['*', '/'], interior) := by
  subst hsa
  set S : List Char := pre ++ ['/', '*', '*'] ++ interior ++ ['*', '/']
    with hS
  have hlen : S.length = pre.length + 3 + interior.length + 2 := by
    simp [hS]
    omega
  have hPA : (pre ++ ['/', '*', '*']).length = pre.length + 3 := by
    simp
  have hSr : S = pre ++ (['/', '*', '*'] ++ (interior ++ ['*', '/'])) := by
    rw [hS, List.append_assoc, List.append_assoc]
  have hS2 : S = (pre ++ ['/', '*', '*']) ++ (interior ++ ['*', '/']) := by
    rw [hS, List.append_assoc]
  have hstart : startsAt ['/', '*', '*'] S pre.length = true := by
    unfold startsAt
    rw [hSr]
    rw [List.drop_left pre (['/', '*', '*'] ++ (interior ++ ['*', '/']))]
    exact List.isPrefixOf_iff_prefix.mpr (List.prefix_append _ _)
  have hterm : findSubFrom ['*', '/'] S (pre.length + 3)
      = some (pre.length + 3 + interior.length) := by
    apply findSubFrom_first
    · omega
    · omega
    · unfold startsAt
      rw [hS2, show pre.length + 3 + interior.length
          = (pre ++ ['/', '*', '*']).length + interior.length by omega,
        List.drop_append, List.drop_left]
      exact List.isPrefixOf_iff_prefix.mpr (List.prefix_refl _)
    · intro j hj1 hj2
      by_contra hcon
      rw [Bool.not_eq_false] at hcon
      have hj'lt : j - (pre.length + 3) < interior.length := by omega
      have hdropS : S.drop j
          = interior.drop (j - (pre.length + 3)) ++ ['*', '/'] := by
        conv_lhs => rw [hS2, show j = (pre ++ ['/', '*', '*']).length
            + (j - (pre.length + 3)) from by omega]
        rw [List.drop_append, List.drop_append_of_le_length (by omega)]
      unfold startsAt at hcon
      rw [hdropS] at hcon
      have hpre := List.isPrefixOf_iff_prefix.mp hcon
      obtain ⟨d, rest, hdr⟩ : ∃ d rest,
          interior.drop (j - (pre.length + 3)) = d :: rest := by
        cases hh : interior.drop (j - (pre.length + 3)) with
        | nil =>
          exfalso
          have := congrArg List.length hh
          simp at this
          omega
        | cons d r => exact ⟨d, r, rfl⟩
      rw [hdr, List.cons_append, List.cons_prefix_iff] at hpre
      obtain ⟨hd1, hpre2⟩ := hpre
      cases rest with
      | nil =>
        rw [List.nil_append, List.cons_prefix_iff] at hpre2
        exact absurd hpre2.1 (by decide)
      | cons e rest2 =>
        rw [List.cons_append, List.cons_prefix_iff] at hpre2
        apply hint
        refine ⟨interior.take (j - (pre.length + 3)), rest2, ?_⟩
        conv_rhs => rw [← List.take_append_drop (j - (pre.length + 3))
          interior]
        rw [List.append_assoc]
        congr 1
        rw [hdr, ← hd1, ← hpre2.1]
        simp
  have htake : (S.take (pre.length + 3 + interior.length)).drop
      (pre.length + 3) = interior := by
    rw [hS2, show pre.length + 3 + interior.length
        = (pre ++ ['/', '*', '*']).length + interior.length by omega,
      List.take_append, List.take_left, ← hPA, List.drop_left]
  have key : ∀ fuel j, j ≤ pre.length → pre.length - j < fuel →
      tsExtractDocstring.go S fuel j
        = some (['/', '*', '*'] ++ interior ++ ['*', '/'], interior) := by
    intro fuel
    induction fuel with
    | zero => intro j _ h; omega
    | succ fuel ih =>
      intro j hj hlt
      rw [tsExtractDocstring.go, if_neg (by omega : ¬ j > S.length)]
      by_cases hjp : j = pre.length
      · subst hjp
        simp only [hstart, if_true, hterm, htake]
      · rw [hfirst j (by omega)]
        simpa using ih (j + 1) (by omega) (by omega)
  exact key (S.length + 1) 0 (by omega) (by omega)

/-- Under the CPython AST guarantees (`lineno ≥ 1`,
`lineno ≤ end_lineno` when present, the declaration's first source line
exists and is non-empty), `_extract_node`'s chunk has an ordered line
range and non-empty `full_text`. -/
theorem pyExtractNode_props (node : PyNode) (fp fc : List Char)
    (h1 : 1 ≤ node.lineno)
    (h2 : ∀ e, node.end_lineno = some e → node.lineno ≤ e)
    (h3 : node.lineno - 1 < (pySplitlines fc).length)
    (h4 : (pySplitlines fc).getD (node.lineno - 1) [] ≠ []) :
    (pyExtractNode node fp fc).line_start
      ≤ (pyExtractNode node fp fc).line_end ∧
    (pyExtractNode node fp fc).full_text ≠ [] := by
  have hend : node.lineno ≤ node.end_lineno.getD node.lineno := by
    cases he : node.end_lineno with
    | none => simp
    | some e => simpa using h2 e he
  have hendLine : node.lineno ≤
      (if node.body ≠ [] then
        max (node.end_lineno.getD node.lineno)
          ((node.body.map (fun e => e.getD node.lineno)).foldl max 0)
      else node.end_lineno.getD node.lineno) := by
    split
    · exact le_trans hend (le_max_left _ _)
    · exact hend
  obtain ⟨hd, tl, hdt⟩ : ∃ hd tl,
      (pySplitlines fc).drop (node.lineno - 1) = hd :: tl := by
    cases hdrop : (pySplitlines fc).drop (node.lineno - 1) with
    | nil =>
      exfalso
      have := congrArg List.length hdrop
      rw [List.length_drop] at this
      simp at this
      omega
    | cons a b => exact ⟨a, b, rfl⟩
  have hhd : hd ≠ [] := by
    have hga : (pySplitlines fc)[node.lineno - 1]? = some hd := by
      have := List.getElem?_drop (pySplitlines fc) (node.lineno - 1) 0
      rw [hdt] at this
      simpa using this.symm
    intro hnil
    apply h4
    rw [List.getD_eq_getElem?_getD, hga, hnil]
    rfl
  have hcode : joinNl (((pySplitlines fc).drop (node.lineno - 1)).take
      ((if node.body ≠ [] then
        max (node.end_lineno.getD node.lineno)
          ((node.body.map (fun e => e.getD node.lineno)).foldl max 0)
      else node.end_lineno.getD node.lineno) - (node.lineno - 1))) ≠ [] := by
    have hE := hendLine
    obtain ⟨m, hm⟩ : ∃ m,
        (if node.body ≠ [] then
          max (node.end_lineno.getD node.lineno)
            ((node.body.map (fun e => e.getD node.lineno)).foldl max 0)
        else node.end_lineno.getD node.lineno) - (node.lineno - 1)
          = m + 1 := by
      refine ⟨(if node.body ≠ [] then
          max (node.end_lineno.getD node.lineno)
            ((node.body.map (fun e => e.getD node.lineno)).foldl max 0)
        else node.end_lineno.getD node.lineno) - (node.lineno - 1) - 1, ?_⟩
      omega
    rw [hm, hdt, List.take_succ_cons]
    cases hd with
    | nil => exact absurd rfl hhd
    | cons a t => simp [joinNl]
  unfold pyExtractNode
  refine ⟨by dsimp only; omega, ?_⟩
  dsimp only
  split
  · intro hcontra
    rcases List.append_eq_nil.mp hcontra with ⟨_, h⟩
    cases h
  · exact hcode

/-! # Claims -/

/-- **C2**, counterexample.  `VectorIndex.build` performs no check that
`len(vectors) == len(metadata)`: building with 1 vector and 2 metadata
entries silently produces a built index (non-`None` `self.index`, the
mismatched metadata installed), instead of surfacing an explicit
operation failure. -/
theorem C2_counterexample :
    (build (freshIdx false Metric.l2) [[(1 : ℝ)]] [10, 20]).index
        = some [[(1 : ℝ)]] ∧
    (build (freshIdx false Metric.l2) [[(1 : ℝ)]] [10, 20]).metadata
        = [10, 20] ∧
    ([[(1 : ℝ)]] : List (List ℝ)).length ≠ ([10, 20] : List Nat).length := by
  refine ⟨?_, ?_, ?_⟩
  · simp [build, freshIdx]
  · simp [build, freshIdx]
  · simp

/-- **C2**, amended: `build` validates nothing about the relative
counts: for any non-empty vector set it installs the given metadata and
a stored matrix with one row per *vector* (even when the two lengths
differ), and `build` with an empty vector set is a no-op. -/
theorem C2_theorem (st : IdxState Md) (emb : List (List ℝ))
    (md : List Md) (hne : emb ≠ []) :
    (∃ M, (build st emb md).index = some M ∧ M.length = emb.length ∧
      (build st emb md).metadata = md) ∧
    build st [] md = st := by
  refine ⟨⟨if st.use_faiss ∧ st.metric = Metric.cosine
      then emb.map l2normalize else emb, ?_, ?_, ?_⟩, ?_⟩
  · simp [build, hne]
  · split <;> simp
  · simp [build, hne]
  · simp [build]

/-- **C2**, witness for `C2_theorem`. -/
theorem C2_witness :
    (∃ M, (build ((freshIdx false Metric.l2 : IdxState Nat)) [[(1 : ℝ)]]
        [10, 20]).index = some M ∧ M.length = [[(1 : ℝ)]].length ∧
      (build (freshIdx false Metric.l2) [[(1 : ℝ)]] [10, 20]).metadata
        = [10, 20]) ∧
    build ((freshIdx false Metric.l2 : IdxState Nat)) [] [10, 20]
      = freshIdx false Metric.l2 :=
  C2_theorem (freshIdx false Metric.l2) [[(1 : ℝ)]] [10, 20] (by simp)

/-- **C10**: after every successful `load`, the metric equals the
metric recorded in the persisted envelope, falling back to the
configured metric only when the envelope lacks one; the loaded state
also takes the envelope's metadata/dimension and the stored matrix. -/
theorem C10_theorem (st : IdxState Md) (name : List Char)
    (store : Store Md) (env : Envelope Md) (M : List (List ℝ))
    (h : store name = some (env, M)) :
    (load st name store).1 = true ∧
    (load st name store).2.metric = env.metric.getD st.metric ∧
    (load st name store).2.metadata = env.metadata ∧
    (load st name store).2.index = some M := by
  simp [load, h]

/-- **C10**, witness: loading an envelope that records `cosine` into an
instance configured with `l2` silently replaces the metric. -/
theorem C10_witness :
    (load ((freshIdx false Metric.l2 : IdxState Nat)) ['n']
        (save { (freshIdx false Metric.cosine : IdxState Nat) with
                index := some [[2]], metadata := [7] } ['n']
          emptyStore)).1 = true ∧
    (load ((freshIdx false Metric.l2 : IdxState Nat)) ['n']
        (save { (freshIdx false Metric.cosine : IdxState Nat) with
                index := some [[2]], metadata := [7] } ['n']
          emptyStore)).2.metric
      = (some Metric.cosine).getD Metric.l2 ∧
    (load ((freshIdx false Metric.l2 : IdxState Nat)) ['n']
        (save { (freshIdx false Metric.cosine : IdxState Nat) with
                index := some [[2]], metadata := [7] } ['n']
          emptyStore)).2.metadata = [7] ∧
    (load ((freshIdx false Metric.l2 : IdxState Nat)) ['n']
        (save { (freshIdx false Metric.cosine : IdxState Nat) with
                index := some [[2]], metadata := [7] } ['n']
          emptyStore)).2.index = some [[2]] :=
  C10_theorem (freshIdx false Metric.l2) ['n']
    (save { (freshIdx false Metric.cosine : IdxState Nat) with
            index := some [[2]], metadata := [7] } ['n'] emptyStore)
    { metadata := [7], dimension := none, metric := some Metric.cosine }
    [[2]] (by simp [save, emptyStore, freshIdx])

/-- **C3**: for every built index, `save name` then `load name` on a
fresh instance with the same configuration succeeds and reproduces the
metadata (order and content), dimension and metric exactly — hence
identical search results for every query vector and `top_k` (the model's
serialization is exact, which implies the claim's floating-point
tolerance). -/
theorem C3_theorem (st : IdxState Md) (name : List Char)
    (store : Store Md) (M : List (List ℝ)) (h : st.index = some M) :
    (load (freshLike st) name (save st name store)).1 = true ∧
    (load (freshLike st) name (save st name store)).2.metadata
      = st.metadata ∧
    (load (freshLike st) name (save st name store)).2.dimension
      = st.dimension ∧
    (load (freshLike st) name (save st name store)).2.metric = st.metric ∧
    ∀ backend q topK,
      search backend (load (freshLike st) name (save st name store)).2 q topK
        = search backend st q topK := by
  have hst : (load (freshLike st) name (save st name store)).2 = st := by
    obtain ⟨uf, m, idx, md, dim⟩ := st
    cases h
    simp [load, save, freshLike, freshIdx]
  refine ⟨?_, ?_, ?_, ?_, ?_⟩
  · obtain ⟨uf, m, idx, md, dim⟩ := st
    cases h
    simp [load, save, freshLike, freshIdx]
  · rw [hst]
  · rw [hst]
  · rw [hst]
  · intro backend q topK; rw [hst]

/-- **C3**, witness. -/
theorem C3_witness :
    (load (freshLike stTwo) ['n'] (save stTwo ['n'] emptyStore)).1 = true ∧
    (load (freshLike stTwo) ['n'] (save stTwo ['n'] emptyStore)).2.metadata
      = stTwo.metadata ∧
    (load (freshLike stTwo) ['n'] (save stTwo ['n'] emptyStore)).2.dimension
      = stTwo.dimension ∧
    (load (freshLike stTwo) ['n'] (save stTwo ['n'] emptyStore)).2.metric
      = stTwo.metric ∧
    ∀ backend q topK,
      search backend (load (freshLike stTwo) ['n']
          (save stTwo ['n'] emptyStore)).2 q topK
        = search backend stTwo q topK :=
  C3_theorem stTwo ['n'] emptyStore [[0], [10]] rfl

/-- **C4**: with an explicit threshold `t` (or `t` coming from
configuration), `query` renders exactly the raw results with
`score ≥ t`, so no rendered result comes from a raw result with
`score < t`; with no threshold supplied and none configured, `query`
renders exactly `raw_query`'s results in the same count and order. -/
theorem C4_theorem (R : RetrModel Md) (text : List Char) (t : ℝ)
    (hinit : R.initialized = true) :
    (∃ rs : List (SearchRes Md), query R text (some t) = .ok (rs.map R.render) ∧
      ∀ r ∈ rs, t ≤ r.score) ∧
    (R.cfgThreshold = some t →
      ∃ rs : List (SearchRes Md), query R text none = .ok (rs.map R.render) ∧
        ∀ r ∈ rs, t ≤ r.score) ∧
    (R.cfgThreshold = none →
      ∃ rs : List (SearchRes Md), rawQuery R text none = .ok rs ∧
        query R text none = .ok (rs.map R.render)) := by
  refine ⟨?_, ?_, ?_⟩
  · refine ⟨(rawSearch R text none).filter
        (fun r => decide (t ≤ r.score)), ?_, ?_⟩
    · simp [query, hinit]
    · intro r hr
      simpa using (List.mem_filter.mp hr).2
  · intro hc
    refine ⟨(rawSearch R text none).filter
        (fun r => decide (t ≤ r.score)), ?_, ?_⟩
    · simp [query, hinit, hc]
    · intro r hr
      simpa using (List.mem_filter.mp hr).2
  · intro hc
    exact ⟨rawSearch R text none, by simp [rawQuery, hinit],
      by simp [query, hinit, hc]⟩

/-- **C4**, witness. -/
theorem C4_witness :
    (∃ rs : List (SearchRes Nat), query retrInit ['q'] (some 0) = .ok (rs.map retrInit.render) ∧
      ∀ r ∈ rs, (0 : ℝ) ≤ r.score) ∧
    (retrInit.cfgThreshold = some 0 →
      ∃ rs : List (SearchRes Nat), query retrInit ['q'] none = .ok (rs.map retrInit.render) ∧
        ∀ r ∈ rs, (0 : ℝ) ≤ r.score) ∧
    (retrInit.cfgThreshold = none →
      ∃ rs : List (SearchRes Nat), rawQuery retrInit ['q'] none = .ok rs ∧
        query retrInit ['q'] none = .ok (rs.map retrInit.render)) :=
  C4_theorem retrInit ['q'] 0 rfl

/-- **C7**, counterexample.  In the brute-force fallback under `l2`,
the score is *not* `1 − distance / (max_distance_in_result_set + ε)`:
with stored vectors `[[0], [10]]`, query `[1]` and `top_k = 1`, the
single returned result has distance `1` (so the result-set maximum is
`1`, and the claimed score would be `1 − 1/(1 + 1e-6)`), but the code
normalises by the maximum distance over *all* stored vectors (`9`),
yielding `1 − 1/(9 + 1e-6)`. -/
theorem C7_counterexample :
    search noBackend stTwo [1] 1
      = .ok [⟨100, 1 - 1 / (9 + 1e-6), 1⟩] ∧
    (1 : ℝ) - 1 / (9 + 1e-6) ≠ 1 - 1 / (1 + 1e-6) :=
  ⟨search_stTwo_eval, by norm_num⟩

/-- **C7**, amended: in the brute-force fallback under `l2`, each
returned result's score is
`1 − distance / (max distance over ALL stored vectors + ε)` — a
per-query normalisation over the whole stored set, not over the
returned result batch — so the fallback's scores do not coincide with
the approximate backend's result-set-normalised scores. -/
theorem C7_theorem (st : IdxState Md)
    (backend : List (List ℝ) → List ℝ → Nat → List ℝ × List ℤ)
    (q : List ℝ) (topK : Nat) (M : List (List ℝ))
    (rs : List (SearchRes Md))
    (hf : st.use_faiss = false) (hm : st.metric = Metric.l2)
    (hidx : st.index = some M)
    (hok : search backend st q topK = .ok rs) :
    ∀ r ∈ rs, r.score
      = 1 - r.distance
        / (listMax (M.map (fun v => euclid q v)) + 1e-6) := by
  rw [search_fallback_l2 backend st M q topK hf hm hidx] at hok
  intro r hr
  obtain ⟨i, m, rfl⟩ := npCollect_ok_forall _ _ _ _ hok r hr
  rfl

/-- **C7**, witness. -/
theorem C7_witness :
    (⟨100, 1 - 1 / (9 + 1e-6), 1⟩ : SearchRes Nat).score
      = 1 - (⟨100, 1 - 1 / (9 + 1e-6), 1⟩ : SearchRes Nat).distance
        / (listMax (([[0], [10]] : List (List ℝ)).map
            (fun v => euclid [1] v)) + 1e-6) :=
  C7_theorem stTwo noBackend [1] 1 [[0], [10]] _ rfl rfl rfl
    search_stTwo_eval (⟨100, 1 - 1 / (9 + 1e-6), 1⟩ : SearchRes Nat)
    (List.mem_singleton.mpr rfl)

/-- **C9**, counterexample.  `search` *can* access the metadata list
out of range: in the brute-force branch there is no `idx <
len(metadata)` guard, so on a state with more stored vectors than
metadata entries (reachable through `build`, which never validates the
counts) the metadata access raises `IndexError`.  Here the nearest
stored vector to the query is index `1`, but `metadata` has length
`1`. -/
theorem C9_counterexample :
    search noBackend stMismatch [9] 1 = .error () ∧
    build (freshIdx false Metric.l2) [[(0 : ℝ)], [10]] [100]
      = stMismatch :=
  ⟨search_stMismatch_eval, by simp [build, freshIdx, stMismatch]⟩

/-- **C9**, amended: with `top_k ≥ 1` and non-empty metadata, (a) the
FAISS branch returns at most `min(top_k, len(metadata))` results for
*any* backend output satisfying the FAISS contract (row lengths equal
to the requested `k`, indices ≥ −1), silently skipping any index `≥
len(metadata)`; (b) the brute-force branch also returns successfully
with at most `min(top_k, len(metadata))` results *provided* the stored
vector count equals the metadata count — without that proviso it can
raise `IndexError` (see the counterexample). -/
theorem C9_theorem (st : IdxState Md)
    (backend : List (List ℝ) → List ℝ → Nat → List ℝ × List ℤ)
    (q : List ℝ) (topK : Nat) (M : List (List ℝ))
    (hidx : st.index = some M) (htop : 1 ≤ topK) (hmd : st.metadata ≠ [])
    (hbk : ∀ Mx qx kx, (backend Mx qx kx).1.length = kx ∧
      (backend Mx qx kx).2.length = kx ∧
      ∀ idx ∈ (backend Mx qx kx).2, -1 ≤ idx) :
    (st.use_faiss = true →
      ∃ rs, search backend st q topK = .ok rs ∧
        rs.length ≤ min topK st.metadata.length) ∧
    (st.use_faiss = false → M.length = st.metadata.length →
      ∃ rs, search backend st q topK = .ok rs ∧
        rs.length ≤ min topK st.metadata.length) := by
  have hmin : 0 < min topK st.metadata.length :=
    lt_min_iff.mpr ⟨htop, List.length_pos.mpr hmd⟩
  constructor
  · intro hf
    cases hmc : st.metric with
    | cosine =>
      obtain ⟨rs, hrs, hlen⟩ := faissCollect_ok st.metadata
        (backend M (l2normalize q) (min topK st.metadata.length)).1
        (backend M (l2normalize q) (min topK st.metadata.length)).1 hmd
        (backend M (l2normalize q) (min topK st.metadata.length)).2
        (hbk M (l2normalize q) (min topK st.metadata.length)).2.2 0
      refine ⟨rs, ?_, hlen.trans
        (le_of_eq (hbk M (l2normalize q) (min topK st.metadata.length)).2.1)⟩
      unfold search
      rw [hidx, hf, hmc]
      exact hrs
    | l2 =>
      have hdne : (backend M q (min topK st.metadata.length)).1 ≠ [] :=
        List.length_pos.mp
          (by rw [(hbk M q (min topK st.metadata.length)).1]; exact hmin)
      obtain ⟨rs, hrs, hlen⟩ := faissCollect_ok st.metadata
        ((backend M q (min topK st.metadata.length)).1.map
          (fun d => 1 - d
            / (listMax (backend M q (min topK st.metadata.length)).1 + 1e-6)))
        (backend M q (min topK st.metadata.length)).1 hmd
        (backend M q (min topK st.metadata.length)).2
        (hbk M q (min topK st.metadata.length)).2.2 0
      refine ⟨rs, ?_, hlen.trans
        (le_of_eq (hbk M q (min topK st.metadata.length)).2.1)⟩
      unfold search
      rw [hidx, hf, hmc]
      show (if (backend M q (min topK st.metadata.length)).1 = []
          then (Except.error () : Except Unit (List (SearchRes Md)))
          else faissCollect st.metadata
            ((backend M q (min topK st.metadata.length)).1.map
              (fun d => 1 - d
                / (listMax (backend M q (min topK st.metadata.length)).1
                    + 1e-6)))
            (backend M q (min topK st.metadata.length)).1 0
            (backend M q (min topK st.metadata.length)).2)
        = Except.ok rs
      rw [if_neg hdne]
      exact hrs
  · intro hf hlen
    cases hmc : st.metric with
    | l2 =>
      rw [search_fallback_l2 backend st M q topK hf hmc hidx]
      have hmem : ∀ i ∈ (argsort (M.map (fun v => euclid q v))).take
          (min topK st.metadata.length), i < st.metadata.length := by
        intro i hi
        have := argsort_mem_lt _ i (List.mem_of_mem_take hi)
        rw [List.length_map, hlen] at this
        exact this
      obtain ⟨rs, hrs, hrsl, _⟩ := npCollect_ok st.metadata _ _ hmem
      refine ⟨rs, hrs, ?_⟩
      rw [hrsl, List.length_take]
      exact min_le_left _ _
    | cosine =>
      rw [search_fallback_cosine backend st M q topK hf hmc hidx]
      have hmem : ∀ i ∈ (pyNegSlice (min topK st.metadata.length)
          (argsort (M.map (fun v => cossim q v)))).reverse,
          i < st.metadata.length := by
        intro i hi
        rw [List.mem_reverse] at hi
        unfold pyNegSlice at hi
        rw [if_neg (by omega)] at hi
        have := argsort_mem_lt _ i (List.mem_of_mem_drop hi)
        rw [List.length_map, hlen] at this
        exact this
      obtain ⟨rs, hrs, hrsl, _⟩ := npCollect_ok st.metadata _ _ hmem
      refine ⟨rs, hrs, ?_⟩
      rw [hrsl, List.length_reverse]
      unfold pyNegSlice
      rw [if_neg (by omega), List.length_drop, argsort_length,
        List.length_map, hlen]
      omega

/-- **C9**, witness: a well-formed two-vector/two-metadata state under
the fallback backend. -/
theorem C9_witness :
    (stTwo.use_faiss = true →
      ∃ rs, search padBackend stTwo [1] 1 = .ok rs ∧
        rs.length ≤ min 1 stTwo.metadata.length) ∧
    (stTwo.use_faiss = false →
      ([[0], [10]] : List (List ℝ)).length = stTwo.metadata.length →
      ∃ rs, search padBackend stTwo [1] 1 = .ok rs ∧
        rs.length ≤ min 1 stTwo.metadata.length) :=
  C9_theorem stTwo padBackend [1] 1 [[0], [10]] rfl (by norm_num)
    (by simp [stTwo])
    (by
      intro Mx qx kx
      refine ⟨by simp [padBackend], by simp [padBackend], ?_⟩
      intro idx hidx
      rw [show (padBackend Mx qx kx).2 = List.replicate kx (-1) from rfl]
        at hidx
      rw [List.eq_of_mem_replicate hidx])

/-- **C5**, counterexample.  A batch whose provider call fails does
*not* yield zero-filled rows for exactly that group's items: a cache
hit inside the failing group keeps its cached (non-zero) vector.  Here
the single group `["a", "b"]` fails its provider call (`group` returns
failure on the miss `["b"]`), yet row 0 is the cached `[5]`, not
`[0]`. -/
theorem C5_counterexample :
    batchEmbed cfgFail (fun _ => false) [['a'], ['b']] none
      = [[(5 : ℝ)], [0]] ∧
    cfgFail.group [['b']] = none ∧
    [(5 : ℝ)] ≠ zeros cfgFail.embed_dim := by
  refine ⟨?_, rfl, ?_⟩
  · rfl
  · intro h
    have : (5 : ℝ) = 0 := by
      simpa [zeros, cfgFail] using congrArg (fun l => l.headD 1) h
    norm_num at this

/-- **C5**, amended: on a cache miss with a failing provider, `embed`
returns the zero vector of the provider's declared dimensionality; in
`batch_embed`, a group whose provider call fails gets zero rows at
exactly its cache-miss positions while cache hits keep their cached
vectors, and every group's rows depend only on that group itself (so
other groups are unaffected). -/
theorem C5_theorem (cfg : EmbCfg) (text : List Char)
    (texts : List (List Char))
    (hmiss : cacheLookup cfg text = none)
    (hsingle : cfg.single text = none)
    (hfail : cfg.group (texts.filter (fun t => (cacheLookup cfg t).isNone))
      = none) :
    embed cfg text = zeros cfg.embed_dim ∧
    processBatch cfg texts
      = texts.map (fun t => (cacheLookup cfg t).getD (zeros cfg.embed_dim)) ∧
    ∀ gr (otherTexts : List (List Char)) (bsArg : Option Nat),
      batchEmbed cfg gr otherTexts bsArg
        = ((chunkBy (effBs cfg bsArg) otherTexts).map
            (fun b => batchResult cfg gr b)).flatten := by
  refine ⟨?_, processBatch_provider_fail cfg texts hfail, ?_⟩
  · rw [embed, hmiss, hsingle]
  · intro gr otherTexts bsArg
    exact batchEmbedWithOrder_flatten cfg gr otherTexts bsArg _
      (fun i hi => List.mem_range.mpr hi)

/-- **C5**, witness: the concrete failing batch of the counterexample
discharges every hypothesis of `C5_theorem`. -/
theorem C5_witness :
    embed cfgFail ['b'] = zeros cfgFail.embed_dim ∧
    processBatch cfgFail [['a'], ['b']]
      = [['a'], ['b']].map
          (fun t => (cacheLookup cfgFail t).getD (zeros cfgFail.embed_dim)) ∧
    ∀ gr (otherTexts : List (List Char)) (bsArg : Option Nat),
      batchEmbed cfgFail gr otherTexts bsArg
        = ((chunkBy (effBs cfgFail bsArg) otherTexts).map
            (fun b => batchResult cfgFail gr b)).flatten :=
  C5_theorem cfgFail ['b'] [['a'], ['b']] rfl rfl rfl

/-- **C6**: `batch_embed` produces exactly one output row per input
text, the result is invariant under the order in which the
concurrently processed groups complete (or fail), and the row at
position `i` is exactly the row the group containing input `i`
computed at `i`'s offset — a group that holds input `i`'s text at that
offset. -/
theorem C6_theorem (cfg : EmbCfg) (gr : List (List Char) → Bool)
    (texts : List (List Char)) (bsArg : Option Nat) (order : List Nat)
    (hbs : 0 < effBs cfg bsArg)
    (horder : ∀ i, i < (chunkBy (effBs cfg bsArg) texts).length →
      i ∈ order) :
    batchEmbedWithOrder cfg gr texts bsArg order
      = batchEmbed cfg gr texts bsArg ∧
    (batchEmbed cfg gr texts bsArg).length = texts.length ∧
    ∀ i, i < texts.length →
      (batchEmbed cfg gr texts bsArg)[i]?
          = (batchResult cfg gr ((chunkBy (effBs cfg bsArg) texts).getD
              (i / effBs cfg bsArg) []))[i % effBs cfg bsArg]?
        ∧ ((chunkBy (effBs cfg bsArg) texts).getD
            (i / effBs cfg bsArg) [])[i % effBs cfg bsArg]? = texts[i]? := by
  have hflat := batchEmbedWithOrder_flatten cfg gr texts bsArg order horder
  have hcanon := batchEmbedWithOrder_flatten cfg gr texts bsArg
    (List.range (chunkBy (effBs cfg bsArg) texts).length)
    (fun i hi => List.mem_range.mpr hi)
  have hbe : batchEmbed cfg gr texts bsArg
      = ((chunkBy (effBs cfg bsArg) texts).map
          (fun b => batchResult cfg gr b)).flatten := hcanon
  refine ⟨hflat.trans hbe.symm, ?_, ?_⟩
  · rw [hbe, List.length_flatten, List.map_map]
    have h1 : (chunkBy (effBs cfg bsArg) texts).map
        (List.length ∘ fun b => batchResult cfg gr b)
        = (chunkBy (effBs cfg bsArg) texts).map List.length :=
      List.map_congr_left (fun b _ => batchResult_length cfg gr b)
    rw [h1, ← List.length_flatten, chunkBy_flatten _ hbs]
  · intro i hi
    rw [hbe]
    exact flatten_chunk_getElem (fun b => batchResult cfg gr b)
      (batchResult_length cfg gr) (effBs cfg bsArg) hbs texts i hi

/-- **C6**, witness: two texts in a single batch, completion order
`[0]`. -/
theorem C6_witness :
    batchEmbedWithOrder cfgFail (fun _ => false) [['a'], ['b']] none [0]
      = batchEmbed cfgFail (fun _ => false) [['a'], ['b']] none ∧
    (batchEmbed cfgFail (fun _ => false) [['a'], ['b']] none).length
      = [['a'], ['b']].length ∧
    ∀ i, i < [['a'], ['b']].length →
      (batchEmbed cfgFail (fun _ => false) [['a'], ['b']] none)[i]?
          = (batchResult cfgFail (fun _ => false)
              ((chunkBy (effBs cfgFail none) [['a'], ['b']]).getD
                (i / effBs cfgFail none) []))[i % effBs cfgFail none]?
        ∧ ((chunkBy (effBs cfgFail none) [['a'], ['b']]).getD
            (i / effBs cfgFail none) [])[i % effBs cfgFail none]?
          = [['a'], ['b']][i]? :=
  C6_theorem cfgFail (fun _ => false) [['a'], ['b']] none [0]
    (by decide) (by decide)

/-- **C1**, counterexample.  The markdown extractor's whole-document
chunk carries the raw file content as `full_text`: an empty (but
valid) file yields one surfaced chunk with *empty* `full_text`, and a
whitespace-only file yields one surfaced chunk whose `full_text` is
entirely whitespace — neither is dropped. -/
theorem C1_counterexample :
    (mdExtractChunks "f.md".toList [] true true).map Chunk.full_text
      = [[]] ∧
    (mdExtractChunks "f.md".toList [' ', '\n'] true true).map
        Chunk.full_text = [[' ', '\n']] ∧
    ([' ', '\n']).all pyWs = true := by
  refine ⟨rfl, rfl, rfl⟩

/-- **C1**, amended: every chunk of every extractor satisfies
`line_start ≤ line_end` (for Python under the CPython AST facts:
1-based `lineno`, `lineno ≤ end_lineno` when present, and the
declaration's first source line exists and is non-empty).  `full_text`
is non-empty — and whitespace-only content is dropped — for markdown
*section* chunks and for TypeScript chunks; the markdown
whole-document chunk instead carries the raw file content, which may
be empty or whitespace-only; Python chunks have non-empty
`full_text`. -/
theorem C1_theorem
    (path content : List Char) (sb valid : Bool)
    (tsPath tsContent : List Char) (tsValid : Bool)
    (pyPath pyContent : List Char) (mds : Option (List Char))
    (nodes : List PyNode) (pyValid : Bool)
    (hnodes : ∀ n ∈ nodes, 1 ≤ n.lineno ∧
      (∀ e, n.end_lineno = some e → n.lineno ≤ e) ∧
      n.lineno - 1 < (pySplitlines pyContent).length ∧
      (pySplitlines pyContent).getD (n.lineno - 1) [] ≠ []) :
    (∀ c ∈ mdExtractChunks path content sb valid,
      c.line_start ≤ c.line_end ∧
      (c.typ = "section".toList → pyStrip c.full_text ≠ []) ∧
      (c.typ = "document".toList → c.full_text = content)) ∧
    (∀ c ∈ tsExtractChunks tsPath tsContent tsValid,
      c.line_start ≤ c.line_end ∧ c.full_text ≠ [] ∧
      pyStrip c.full_text ≠ []) ∧
    (∀ c ∈ pyExtractChunks pyPath pyContent mds nodes pyValid,
      c.line_start ≤ c.line_end ∧ c.full_text ≠ []) := by
  refine ⟨?_, ?_, ?_⟩
  · intro c hc
    unfold mdExtractChunks at hc
    split at hc
    · cases hc
    · rcases List.mem_cons.mp hc with hEq | hMem
      · subst hEq
        refine ⟨by dsimp only; omega, ?_, fun _ => rfl⟩
        intro htyp
        exact absurd htyp (by dsimp only; decide)
      · split at hMem
        · obtain ⟨hle, htyp, hstrip⟩ :=
            mdSectionChunks_props path (splitByHeadings content) 1 c hMem
          exact ⟨hle, fun _ => hstrip, fun hdoc => absurd (htyp ▸ hdoc)
            (by decide)⟩
        · cases hMem
  · intro c hc
    unfold tsExtractChunks at hc
    split at hc
    · cases hc
    · rcases List.mem_append.mp hc with h1 | h4
      · rcases List.mem_append.mp h1 with h2 | h3
        · rcases List.mem_append.mp h2 with h5 | h6
          · exact tsChunksOf_props _ _ _ _ c h5
          · exact tsChunksOf_props _ _ _ _ c h6
        · exact tsChunksOf_props _ _ _ _ c h3
      · exact tsChunksOf_props _ _ _ _ c h4
  · intro c hc
    unfold pyExtractChunks at hc
    split at hc
    · cases hc
    · rcases List.mem_append.mp hc with hMod | hNode
      · split at hMod
        · split at hMod
          · rcases List.mem_singleton.mp hMod with rfl
            refine ⟨by dsimp only; omega, by dsimp only; assumption⟩
          · cases hMod
        · cases hMod
      · obtain ⟨n, hn, rfl⟩ := List.mem_map.mp hNode
        obtain ⟨h1, h2, h3, h4⟩ := hnodes n hn
        exact pyExtractNode_props n pyPath pyContent h1 h2 h3 h4

/-- **C1**, witness: one concrete file per extractor. -/
theorem C1_witness :
    (∀ c ∈ mdExtractChunks "f.md".toList "# T\nbody".toList true true,
      c.line_start ≤ c.line_end ∧
      (c.typ = "section".toList → pyStrip c.full_text ≠ []) ∧
      (c.typ = "document".toList → c.full_text = "# T\nbody".toList)) ∧
    (∀ c ∈ tsExtractChunks "t.ts".toList
        "function f() \x7b return 1; \x7d".toList true,
      c.line_start ≤ c.line_end ∧ c.full_text ≠ [] ∧
      pyStrip c.full_text ≠ []) ∧
    (∀ c ∈ pyExtractChunks "p.py".toList "def f():\n    pass".toList
        (some "doc".toList)
        [⟨"f".toList, "FunctionDef".toList, 1, some 2, [some 2],
          none⟩] true,
      c.line_start ≤ c.line_end ∧ c.full_text ≠ []) := by
  refine C1_theorem "f.md".toList "# T\nbody".toList true true
    "t.ts".toList "function f() \x7b return 1; \x7d".toList true
    "p.py".toList "def f():\n    pass".toList (some "doc".toList)
    [⟨"f".toList, "FunctionDef".toList, 1, some 2, [some 2], none⟩]
    true ?_
  intro n hn
  rcases List.mem_singleton.mp hn with rfl
  refine ⟨by decide, ?_, by decide, by decide⟩
  intro e he
  cases he
  decide

/-- **C8**, counterexample.  `_extract_docstring` only ever considers
the *first* `/** … */` comment of the preceding text (`re.search`),
so a declaration whose adjacent doc comment is not the file's first
block comment gets `doc_text = ""` even though a `/** … */` comment
ends exactly at its match start: in `c8content`, `function b` starts
at index 43, the rstripped preceding text ends with `/** second */`,
yet the extracted docstring is empty (while `function a` gets
`"first"`). -/
theorem C8_counterexample :
    finditer matchFunctionAt c8content
      = [(13, ['a']), (43, ['b'])] ∧
    List.isSuffixOf "/** second */".toList
      (pyRstrip (c8content.take 43)) = true ∧
    tsExtractDocstring c8content 43 = [] ∧
    pyStrip " second ".toList = "second".toList ∧
    (tsExtractChunks "t.ts".toList c8content true).map
      (fun c => (c.name, c.docstring))
      = [(['a'], "first".toList), (['b'], [])] := by
  refine ⟨?_, ?_, ?_, ?_, ?_⟩ <;> rfl

/-- **C8**, amended: the chunk's `doc_text` is the stripped interior of
a `/** … */` comment ending exactly at the match start (ignoring
trailing whitespace) *provided* that comment is the first `/**` in the
content before the match; with any earlier `/**` occurrence the
comment found by `re.search` is that earlier one, and `doc_text` is
empty unless it happens to end at the match start. -/
theorem C8_theorem (content : List Char) (pos : Nat)
    (pre interior : List Char)
    (hsa : pyRstrip (content.take pos)
      = pre ++ ['/', '*', '*'] ++ interior ++ ['*', '/'])
    (hfirst : ∀ j, j < pre.length →
      startsAt ['/', '*', '*'] (pyRstrip (content.take pos)) j = false)
    (hint : ¬ (['*', '/'] <:+: interior)) :
    tsExtractDocstring content pos = pyStrip interior := by
  unfold tsExtractDocstring
  dsimp only
  rw [firstBlockComment_eq (pyRstrip (content.take pos)) pre interior hsa
    hfirst hint]
  dsimp only
  have hform : pyRstrip (content.take pos)
      = pre ++ (['/', '*', '*'] ++ interior ++ ['*', '/']) := by
    rw [hsa]
    simp [List.append_assoc]
  have hsuf : (['/', '*', '*'] ++ interior ++ ['*', '/'])
      <:+ pyRstrip (content.take pos) := by
    rw [hform]
    exact List.suffix_append _ _
  rw [if_pos (List.isSuffixOf_iff_suffix.mpr hsuf)]

/-- **C8**, witness: a declaration preceded by the file's only block
comment gets that comment's stripped interior. -/
theorem C8_witness :
    tsExtractDocstring c8single 9 = pyStrip " d ".toList :=
  C8_theorem c8single 9 [] " d ".toList (by decide)
    (by intro j hj; simp at hj) (by decide)

end CtxRetr
